import Mathlib

/-!
Verification of the next-lens route-discovery and source-mutation core.

The TypeScript sources are shallowly embedded as pure Lean functions over
`List Char` (file contents) and `List String` (filesystem paths).  JavaScript
regular expressions are embedded as deterministic scanners that implement the
exact pattern semantics (anchors, greedy classes, word boundaries, case
flags) of the concrete regex literals appearing in the source.  JavaScript
character classes are modelled on their ASCII fragment (`\s`, `\w`); every
concrete input used in the development is ASCII.  `String.prototype.
localeCompare` is modelled as code-point lexicographic comparison; on the
ASCII inputs appearing here the two orders agree.
-/

namespace NextLens

/-! ## Character classes (JS regex semantics, ASCII fragment) -/

/-- Characters that JS regex `.` does **not** match (line terminators). -/
def lineTerminators : List Char := ['\n', '\r', Char.ofNat 0x2028, Char.ofNat 0x2029]

/-- JS regex `.` (without the `s` flag): any char except a line terminator. -/
def jsDot (c : Char) : Bool := !(lineTerminators.contains c)

/-- JS regex `\s` (ASCII fragment): space, tab, newline, CR, vertical tab, form feed. -/
def jsSpace (c : Char) : Bool :=
  c = ' ' || c = '\t' || c = '\n' || c = '\r' || c = Char.ofNat 0x0b || c = Char.ofNat 0x0c

/-- JS regex `\w`: ASCII letters, digits, underscore. -/
def isWordChar (c : Char) : Bool := c.isAlpha || c.isDigit || c = '_'

/-- First character of a JS identifier per the source patterns: `[A-Za-z_$]`. -/
def isIdentStart (c : Char) : Bool := c.isAlpha || c = '_' || c = '$'

/-- Subsequent identifier character per the source patterns: `[\w$]`. -/
def isIdentChar (c : Char) : Bool := isWordChar c || c = '$'

/-! ## Segment Classifier

`transformSegment` from `src/lib/utils.ts`:

```ts
export function transformSegment(segment: string): string {
  const optionalCatchAll = segment.match(/^\[\[\.\.\.(.+)]]$/)
  if (optionalCatchAll) return `:${optionalCatchAll[1]}*?`
  const catchAll = segment.match(/^\[\.\.\.(.+)]$/)
  if (catchAll) return `:${catchAll[1]}*`
  const dynamic = segment.match(/^\[(.+)]$/)
  if (dynamic) return `:${dynamic[1]}`
  return segment
}
```

Each regex is fully anchored, so the capture group `(.+)` is forced to be
exactly the text strictly between the literal prefix and the literal suffix;
it matches only if that text is non-empty and free of line terminators
(which `.` excludes). -/

/-- Anchored match of `/^\[\[\.\.\.(.+)]]$/`, returning the capture. -/
def matchOptionalCatchAll (seg : List Char) : Option (List Char) :=
  match seg with
  | '[' :: '[' :: '.' :: '.' :: '.' :: rest =>
    match rest.reverse with
    | ']' :: ']' :: revName =>
      if revName.reverse ≠ [] ∧ revName.reverse.all jsDot then some revName.reverse else none
    | _ => none
  | _ => none

/-- Anchored match of `/^\[\.\.\.(.+)]$/`, returning the capture. -/
def matchCatchAll (seg : List Char) : Option (List Char) :=
  match seg with
  | '[' :: '.' :: '.' :: '.' :: rest =>
    match rest.reverse with
    | ']' :: revName =>
      if revName.reverse ≠ [] ∧ revName.reverse.all jsDot then some revName.reverse else none
    | _ => none
  | _ => none

/-- Anchored match of `/^\[(.+)]$/`, returning the capture. -/
def matchDynamic (seg : List Char) : Option (List Char) :=
  match seg with
  | '[' :: rest =>
    match rest.reverse with
    | ']' :: revName =>
      if revName.reverse ≠ [] ∧ revName.reverse.all jsDot then some revName.reverse else none
    | _ => none
  | _ => none

/-- `transformSegment` (Segment Classifier): ordered rule chain. -/
def transformSegment (seg : List Char) : List Char :=
  match matchOptionalCatchAll seg with
  | some name => ':' :: name ++ ['*', '?']
  | none =>
    match matchCatchAll seg with
    | some name => ':' :: name ++ ['*']
    | none =>
      match matchDynamic seg with
      | some name => ':' :: name
      | none => seg

/-- `shouldIncludeSegment` from `page-routes.ts`: drop empty segments,
`(group)` segments and `@slot` segments. -/
def shouldIncludeSegment (seg : List Char) : Bool :=
  match seg with
  | [] => false
  | c :: rest =>
    if c = '(' ∧ (c :: rest).getLast? = some ')' then false
    else if c = '@' then false
    else true

/-! ### Inversion lemmas for the three anchored segment patterns -/

theorem matchOptionalCatchAll_eq_some {s m : List Char} (h : matchOptionalCatchAll s = some m) :
    s = '[' :: '[' :: '.' :: '.' :: '.' :: (m ++ [']', ']']) ∧ m ≠ [] ∧ m.all jsDot = true := by
  unfold matchOptionalCatchAll at h
  split at h
  case _ rest =>
    split at h
    case _ revName hrev =>
      split at h
      case isTrue hc =>
        obtain ⟨rfl⟩ := Option.some.injEq _ _ ▸ h
        have : rest = revName.reverse ++ [']', ']'] := by
          have := congrArg List.reverse hrev
          simpa using this
        exact ⟨by rw [this], hc.1, hc.2⟩
      case isFalse => exact absurd h (by simp)
    case _ => exact absurd h (by simp)
  case _ => exact absurd h (by simp)

theorem matchCatchAll_eq_some {s m : List Char} (h : matchCatchAll s = some m) :
    s = '[' :: '.' :: '.' :: '.' :: (m ++ [']']) ∧ m ≠ [] ∧ m.all jsDot = true := by
  unfold matchCatchAll at h
  split at h
  case _ rest =>
    split at h
    case _ revName hrev =>
      split at h
      case isTrue hc =>
        obtain ⟨rfl⟩ := Option.some.injEq _ _ ▸ h
        have : rest = revName.reverse ++ [']'] := by
          have := congrArg List.reverse hrev
          simpa using this
        exact ⟨by rw [this], hc.1, hc.2⟩
      case isFalse => exact absurd h (by simp)
    case _ => exact absurd h (by simp)
  case _ => exact absurd h (by simp)

theorem matchDynamic_eq_some {s m : List Char} (h : matchDynamic s = some m) :
    s = '[' :: (m ++ [']']) ∧ m ≠ [] ∧ m.all jsDot = true := by
  unfold matchDynamic at h
  split at h
  case _ rest =>
    split at h
    case _ revName hrev =>
      split at h
      case isTrue hc =>
        obtain ⟨rfl⟩ := Option.some.injEq _ _ ▸ h
        have : rest = revName.reverse ++ [']'] := by
          have := congrArg List.reverse hrev
          simpa using this
        exact ⟨by rw [this], hc.1, hc.2⟩
      case isFalse => exact absurd h (by simp)
    case _ => exact absurd h (by simp)
  case _ => exact absurd h (by simp)

/-! ### Forward evaluation lemmas for well-formed bracket segments -/

theorem matchOptionalCatchAll_build (name : List Char) (h1 : name ≠ [])
    (h2 : name.all jsDot = true) :
    matchOptionalCatchAll ('[' :: '[' :: '.' :: '.' :: '.' :: (name ++ [']', ']'])) =
      some name := by
  simp only [matchOptionalCatchAll]
  have hrev : (name ++ [']', ']']).reverse = ']' :: ']' :: name.reverse := by simp
  rw [hrev]
  simp [h1, h2]

theorem matchCatchAll_build (name : List Char) (h1 : name ≠ [])
    (h2 : name.all jsDot = true) :
    matchCatchAll ('[' :: '.' :: '.' :: '.' :: (name ++ [']'])) = some name := by
  simp only [matchCatchAll]
  have hrev : (name ++ [']']).reverse = ']' :: name.reverse := by simp
  rw [hrev]
  simp [h1, h2]

theorem matchDynamic_build (name : List Char) (h1 : name ≠ [])
    (h2 : name.all jsDot = true) :
    matchDynamic ('[' :: (name ++ [']'])) = some name := by
  simp only [matchDynamic]
  have hrev : (name ++ [']']).reverse = ']' :: name.reverse := by simp
  rw [hrev]
  simp [h1, h2]

/-- The optional-catch-all pattern never matches a segment that does not
start with two open brackets. -/
theorem matchOptionalCatchAll_catch_none (name : List Char) :
    matchOptionalCatchAll ('[' :: '.' :: '.' :: '.' :: (name ++ [']'])) = none := by
  rfl

theorem matchOptionalCatchAll_dyn_none (name : List Char) (h : name.head? ≠ some '[') :
    matchOptionalCatchAll ('[' :: (name ++ [']'])) = none := by
  cases hm : matchOptionalCatchAll ('[' :: (name ++ [']'])) with
  | none => rfl
  | some m =>
    obtain ⟨hs, -, -⟩ := matchOptionalCatchAll_eq_some hm
    obtain ⟨-, hs⟩ := List.cons.injEq _ _ _ _ ▸ hs
    cases name with
    | nil => simp at hs
    | cons a t =>
      obtain ⟨rfl, -⟩ := List.cons.injEq _ _ _ _ ▸ hs
      simp at h

theorem matchCatchAll_dyn_none (name : List Char) (h : name.take 3 ≠ ['.', '.', '.']) :
    matchCatchAll ('[' :: (name ++ [']'])) = none := by
  cases hm : matchCatchAll ('[' :: (name ++ [']'])) with
  | none => rfl
  | some m =>
    obtain ⟨hs, -, -⟩ := matchCatchAll_eq_some hm
    obtain ⟨-, hs⟩ := List.cons.injEq _ _ _ _ ▸ hs
    have : name = '.' :: '.' :: '.' :: m := by
      have := hs.trans (by simp : '.' :: '.' :: '.' :: (m ++ [']']) = ('.' :: '.' :: '.' :: m) ++ [']'])
      exact (List.append_left_inj _).mp this
    exact absurd (by simp [this] : name.take 3 = ['.', '.', '.']) h

/-- **C5** (amended).  The Segment Classifier checks its three bracket rules
in order: for every non-empty `name` free of line-terminator characters
(which JS regex `.` does not match), `[[...name]]` maps to `:name*?`,
`[...name]` maps to `:name*`, `[name]` maps to `:name` provided the earlier
rules do not fire on it (`name` does not begin with `...` or `[`), and any
segment on which none of the three anchored bracket patterns matches is
returned unchanged as a static literal. -/
theorem c5_segment_classifier (name : List Char) (h1 : name ≠ [])
    (h2 : name.all jsDot = true) :
    transformSegment ('[' :: '[' :: '.' :: '.' :: '.' :: (name ++ [']', ']'])) =
        ':' :: name ++ ['*', '?'] ∧
    transformSegment ('[' :: '.' :: '.' :: '.' :: (name ++ [']'])) = ':' :: name ++ ['*'] ∧
    (name.take 3 ≠ ['.', '.', '.'] → name.head? ≠ some '[' →
        transformSegment ('[' :: (name ++ [']'])) = ':' :: name) ∧
    (∀ seg, matchOptionalCatchAll seg = none → matchCatchAll seg = none →
        matchDynamic seg = none → transformSegment seg = seg) := by
  refine ⟨?_, ?_, ?_, ?_⟩
  · unfold transformSegment
    rw [matchOptionalCatchAll_build name h1 h2]
  · unfold transformSegment
    rw [matchOptionalCatchAll_catch_none name, matchCatchAll_build name h1 h2]
  · intro h3 h4
    unfold transformSegment
    rw [matchOptionalCatchAll_dyn_none name h4, matchCatchAll_dyn_none name h3,
      matchDynamic_build name h1 h2]
  · intro seg hopt hcatch hdyn
    unfold transformSegment
    rw [hopt, hcatch, hdyn]

/-- **C5** counterexample.  The claim quantifies over *every* non-empty
name, but a name containing a line terminator (here `a\nb`) defeats the
anchored `(.+)` capture, so `[[...a\nb]]` falls through to Static and is
returned unchanged instead of being mapped to `:a\nb*?` as the claim
requires. -/
theorem c5_counterexample :
    ("a\nb".toList : List Char) ≠ [] ∧
    transformSegment ("[[...a\nb]]".toList) = "[[...a\nb]]".toList ∧
    transformSegment ("[[...a\nb]]".toList) ≠ ':' :: "a\nb".toList ++ ['*', '?'] := by
  refine ⟨by decide, by decide, by decide⟩

/-- Witness for `c5_segment_classifier` at the concrete name `slug`. -/
theorem c5_witness :
    transformSegment ('[' :: '[' :: '.' :: '.' :: '.' :: ("slug".toList ++ [']', ']'])) =
      ':' :: "slug".toList ++ ['*', '?'] :=
  (c5_segment_classifier "slug".toList (by decide) (by decide)).1

/-! ## Fallback Resolver

`resolveFallbackStatus` / `hasFallbackFile` from `page-routes.ts`.

Directories are modelled as segment lists **deepest segment first**, so
`path.dirname` is `List.tail` and "`a` is an ancestor-or-self of `d`" is
"`a` is a suffix of `d`".  Paths are assumed normalized and absolute, which
is what `path.resolve`/`path.relative` guarantee in the source, so
`pathsEqual` is list equality and `isWithinAppRoot` is the suffix test.
The filesystem is abstracted as a predicate from (directory, filename) to
existence of a regular file. -/

/-- Fixed page/fallback extension set, in `Set` insertion (= iteration) order. -/
def FALLBACK_EXTENSIONS : List String :=
  [".ts", ".tsx", ".js", ".jsx", ".mdx", ".md", ".mjs", ".cjs"]

/-- Abstract filesystem: which (directory, filename) pairs are regular files. -/
def Fs : Type := List String → String → Bool

/-- `co-located` / `inherited` / `missing`. -/
inductive FallbackStatus where
  | coLocated
  | inherited
  | missing
deriving DecidableEq, Repr

/-- `isWithinAppRoot(directory, appRootPath)`: the target is the app root
itself or lies below it.  In the suffix-path model this is exactly
"`appRoot` is a suffix of `dir`". -/
def isWithinAppRoot (dir appRoot : List String) : Bool :=
  dir = appRoot ||
    match dir with
    | [] => false
    | _ :: parent => isWithinAppRoot parent appRoot

/-- `hasFallbackFile`: probe `{basename}{ext}` for each extension in order,
stopping at the first hit.  Also returns the list of `stat` probes made
(directory, candidate filename), in order. -/
def hasFallbackProbes (fs : Fs) (dir : List String) (basename : String) :
    List String → Bool × List (List String × String)
  | [] => (false, [])
  | ext :: rest =>
    if fs dir (basename ++ ext) then (true, [(dir, basename ++ ext)])
    else
      match hasFallbackProbes fs dir basename rest with
      | (b, ps) => (b, (dir, basename ++ ext) :: ps)

/-- `hasFallbackFile(directory, basename)` from the source. -/
def hasFallbackFile (fs : Fs) (dir : List String) (basename : String) : Bool :=
  (hasFallbackProbes fs dir basename FALLBACK_EXTENSIONS).1

/-- The `stat` probes attempted by one `hasFallbackFile` call. -/
def fallbackProbes (fs : Fs) (dir : List String) (basename : String) :
    List (List String × String) :=
  (hasFallbackProbes fs dir basename FALLBACK_EXTENSIONS).2

/-- The `while` loop of `resolveFallbackStatus`, instrumented with the
probe trace.  `first` is the source's `isFirst` flag. -/
def resolveFallbackGo (fs : Fs) (b : String) (appRoot : List String)
    (cur : List String) (first : Bool) :
    FallbackStatus × List (List String × String) :=
    if isWithinAppRoot cur appRoot then
      if hasFallbackFile fs cur b then
        ((if first then .coLocated else .inherited), fallbackProbes fs cur b)
      else if cur = appRoot then (.missing, fallbackProbes fs cur b)
      else
        match cur with
        | [] => (.missing, fallbackProbes fs [] b)
        | _ :: parent =>
          ((resolveFallbackGo fs b appRoot parent false).1,
            fallbackProbes fs cur b ++ (resolveFallbackGo fs b appRoot parent false).2)
    else (.missing, [])

/-- `resolveFallbackStatus(directory, basename, appRootPath)`. -/
def resolveFallbackStatus (fs : Fs) (dir : List String) (basename : String)
    (appRoot : List String) : FallbackStatus :=
  (resolveFallbackGo fs basename appRoot dir true).1

/-- The `stat` probes performed by one fallback resolution. -/
def resolveFallbackTrace (fs : Fs) (dir : List String) (basename : String)
    (appRoot : List String) : List (List String × String) :=
  (resolveFallbackGo fs basename appRoot dir true).2

theorem isWithinAppRoot_refl (x : List String) : isWithinAppRoot x x = true := by
  cases x <;> simp [isWithinAppRoot]

theorem isWithinAppRoot_cons (c : String) (t a : List String) :
    isWithinAppRoot (c :: t) a = (decide (c :: t = a) || isWithinAppRoot t a) := by
  rw [isWithinAppRoot]

theorem isWithinAppRoot_nil {r : List String} (h : isWithinAppRoot [] r = true) :
    r = [] := by
  rw [isWithinAppRoot] at h
  simpa using h.symm

theorem isWithinAppRoot_length {x y : List String} (h : isWithinAppRoot x y = true) :
    y.length ≤ x.length := by
  induction x with
  | nil => simp [isWithinAppRoot_nil h]
  | cons c t ih =>
    rw [isWithinAppRoot_cons] at h
    rcases Bool.or_eq_true_iff.mp h with h | h
    · simp [of_decide_eq_true h]
    · exact Nat.le_succ_of_le (ih h)

theorem isWithinAppRoot_antisymm {x y : List String} (hxy : isWithinAppRoot x y = true)
    (hyx : isWithinAppRoot y x = true) : x = y := by
  cases x with
  | nil => simp [isWithinAppRoot_nil hxy]
  | cons c t =>
    rw [isWithinAppRoot_cons] at hxy
    rcases Bool.or_eq_true_iff.mp hxy with h | h
    · exact of_decide_eq_true h
    · have h1 := isWithinAppRoot_length h
      have h2 := isWithinAppRoot_length hyx
      simp at h2
      omega

theorem hasFallbackProbes_dir (fs : Fs) (dir : List String) (b : String) :
    ∀ exts p, p ∈ (hasFallbackProbes fs dir b exts).2 → p.1 = dir := by
  intro exts
  induction exts with
  | nil => intro p hp; simp [hasFallbackProbes] at hp
  | cons e rest ih =>
    intro p hp
    rw [hasFallbackProbes] at hp
    by_cases hfs : fs dir (b ++ e) = true
    · simp [hfs] at hp
      simp [hp]
    · simp [hfs] at hp
      rcases hrec : hasFallbackProbes fs dir b rest with ⟨found, ps⟩
      rw [hrec] at hp
      simp at hp
      rcases hp with hp | hp
      · simp [hp]
      · exact ih p (by rw [hrec]; exact hp)

theorem fallbackProbes_dir (fs : Fs) (dir : List String) (b : String) :
    ∀ p ∈ fallbackProbes fs dir b, p.1 = dir := by
  intro p hp
  exact hasFallbackProbes_dir fs dir b FALLBACK_EXTENSIONS p hp

/-- The loop with `isFirst = false` never reports `co-located`, and reports
`inherited` exactly when some ancestor-or-self of the current directory, at
or below the app root, holds a fallback file. -/
theorem resolveFallbackGo_false_spec (fs : Fs) (b : String) (r : List String) :
    ∀ cur, isWithinAppRoot cur r = true →
      (resolveFallbackGo fs b r cur false).1 ≠ .coLocated ∧
      ((resolveFallbackGo fs b r cur false).1 = .inherited ↔
        ∃ a, isWithinAppRoot cur a = true ∧ isWithinAppRoot a r = true ∧
          hasFallbackFile fs a b = true) := by
  intro cur
  induction cur with
  | nil =>
    intro hw
    have hr := isWithinAppRoot_nil hw
    subst hr
    rw [resolveFallbackGo, if_pos (isWithinAppRoot_refl [])]
    by_cases hf : hasFallbackFile fs [] b = true
    · rw [if_pos hf]
      refine ⟨by simp, ?_⟩
      simp only [if_neg (Bool.false_ne_true), Bool.false_eq_true]
      constructor
      · intro _
        exact ⟨[], isWithinAppRoot_refl [], isWithinAppRoot_refl [], hf⟩
      · intro _; rfl
    · rw [if_neg hf, if_pos rfl]
      refine ⟨by simp, ?_⟩
      constructor
      · intro h; exact absurd h (by simp)
      · rintro ⟨a, ha1, ha2, ha3⟩
        have : a = [] := isWithinAppRoot_antisymm ha2 ha1
        subst this
        exact absurd ha3 hf
  | cons c t ih =>
    intro hw
    rw [resolveFallbackGo, if_pos hw]
    by_cases hf : hasFallbackFile fs (c :: t) b = true
    · rw [if_pos hf]
      refine ⟨by simp, ?_⟩
      simp only [Bool.false_eq_true, if_neg (Bool.false_ne_true)]
      constructor
      · intro _
        exact ⟨c :: t, isWithinAppRoot_refl _, hw, hf⟩
      · intro _; rfl
    · rw [if_neg hf]
      by_cases heq : c :: t = r
      · rw [if_pos heq]
        refine ⟨by simp, ?_⟩
        constructor
        · intro h; exact absurd h (by simp)
        · rintro ⟨a, ha1, ha2, ha3⟩
          rw [← heq] at ha2
          have : a = c :: t := isWithinAppRoot_antisymm ha2 ha1
          subst this
          exact absurd ha3 hf
      · rw [if_neg heq]
        have hwt : isWithinAppRoot t r = true := by
          rw [isWithinAppRoot_cons] at hw
          rcases Bool.or_eq_true_iff.mp hw with h | h
          · exact absurd (of_decide_eq_true h) heq
          · exact h
        obtain ⟨ihne, ihiff⟩ := ih hwt
        refine ⟨by simpa using ihne, ?_⟩
        simp only
        rw [ihiff]
        constructor
        · rintro ⟨a, ha1, ha2, ha3⟩
          refine ⟨a, ?_, ha2, ha3⟩
          rw [isWithinAppRoot_cons]
          simp [ha1]
        · rintro ⟨a, ha1, ha2, ha3⟩
          rw [isWithinAppRoot_cons] at ha1
          rcases Bool.or_eq_true_iff.mp ha1 with h | h
          · have hac : c :: t = a := of_decide_eq_true h
            rw [← hac] at ha3
            exact absurd ha3 hf
          · exact ⟨a, h, ha2, ha3⟩

/-- Every `stat` probe performed by the resolver loop targets a directory
at or below the app root. -/
theorem resolveFallbackGo_trace (fs : Fs) (b : String) (r : List String) :
    ∀ cur first p, p ∈ (resolveFallbackGo fs b r cur first).2 →
      isWithinAppRoot p.1 r = true := by
  intro cur
  induction cur with
  | nil =>
    intro first p hp
    rw [resolveFallbackGo] at hp
    by_cases hw : isWithinAppRoot [] r = true
    · rw [if_pos hw] at hp
      have hmem : p ∈ fallbackProbes fs [] b := by
        by_cases hf : hasFallbackFile fs [] b = true
        · rw [if_pos hf] at hp; exact hp
        · rw [if_neg hf] at hp
          by_cases heq : ([] : List String) = r
          · rw [if_pos heq] at hp; exact hp
          · rw [if_neg heq] at hp; exact hp
      rw [fallbackProbes_dir fs [] b p hmem]
      exact hw
    · rw [if_neg hw] at hp
      simp at hp
  | cons c t ih =>
    intro first p hp
    rw [resolveFallbackGo] at hp
    by_cases hw : isWithinAppRoot (c :: t) r = true
    · rw [if_pos hw] at hp
      by_cases hf : hasFallbackFile fs (c :: t) b = true
      · rw [if_pos hf] at hp
        rw [fallbackProbes_dir fs (c :: t) b p hp]
        exact hw
      · rw [if_neg hf] at hp
        by_cases heq : c :: t = r
        · rw [if_pos heq] at hp
          rw [fallbackProbes_dir fs (c :: t) b p hp]
          exact hw
        · rw [if_neg heq] at hp
          simp only [List.mem_append] at hp
          rcases hp with hp | hp
          · rw [fallbackProbes_dir fs (c :: t) b p hp]
            exact hw
          · exact ih false p hp
    · rw [if_neg hw] at hp
      simp at hp

/-- **C6**.  For a view file's directory (inside the routing root) and a
fallback kind: the status is `co-located` iff a `{kind}{ext}` file exists in
the directory itself for some extension of the fixed set, `inherited` iff
none exists there but one exists in a strict ancestor at or below the
routing root, `missing` otherwise; and every directory probed lies at or
below the routing root (directories above it are never examined). -/
theorem c6_fallback_resolution (fs : Fs) (b : String) (dir appRoot : List String)
    (hroot : isWithinAppRoot dir appRoot = true) :
    (resolveFallbackStatus fs dir b appRoot = .coLocated ↔
      hasFallbackFile fs dir b = true) ∧
    (resolveFallbackStatus fs dir b appRoot = .inherited ↔
      (hasFallbackFile fs dir b = false ∧
        ∃ a, a ≠ dir ∧ isWithinAppRoot dir a = true ∧ isWithinAppRoot a appRoot = true ∧
          hasFallbackFile fs a b = true)) ∧
    (resolveFallbackStatus fs dir b appRoot = .missing ↔
      (hasFallbackFile fs dir b = false ∧
        ¬ ∃ a, a ≠ dir ∧ isWithinAppRoot dir a = true ∧ isWithinAppRoot a appRoot = true ∧
          hasFallbackFile fs a b = true)) ∧
    (∀ p ∈ resolveFallbackTrace fs dir b appRoot, isWithinAppRoot p.1 appRoot = true) := by
  have htrace : ∀ p ∈ resolveFallbackTrace fs dir b appRoot,
      isWithinAppRoot p.1 appRoot = true := by
    intro p hp
    exact resolveFallbackGo_trace fs b appRoot dir true p hp
  rw [resolveFallbackStatus, resolveFallbackGo.eq_def, if_pos hroot]
  by_cases hf : hasFallbackFile fs dir b = true
  · rw [if_pos hf]
    refine ⟨⟨fun _ => hf, fun _ => by simp⟩, ?_, ?_, htrace⟩
    · constructor
      · intro h; simp at h
      · rintro ⟨h, -⟩; rw [hf] at h; exact absurd h (by simp)
    · constructor
      · intro h; simp at h
      · rintro ⟨h, -⟩; rw [hf] at h; exact absurd h (by simp)
  · rw [if_neg hf]
    have hff : hasFallbackFile fs dir b = false := by
      simpa using hf
    by_cases heq : dir = appRoot
    · rw [if_pos heq]
      have hnex : ¬ ∃ a, a ≠ dir ∧ isWithinAppRoot dir a = true ∧
          isWithinAppRoot a appRoot = true ∧ hasFallbackFile fs a b = true := by
        rintro ⟨a, hne, h1, h2, -⟩
        rw [heq] at h1
        exact hne ((isWithinAppRoot_antisymm h2 h1).trans heq.symm)
      refine ⟨?_, ?_, ?_, htrace⟩
      · constructor
        · intro h; simp at h
        · intro h; exact absurd h hf
      · constructor
        · intro h; simp at h
        · rintro ⟨-, hex⟩; exact absurd hex hnex
      · exact ⟨fun _ => ⟨hff, hnex⟩, fun _ => rfl⟩
    · rw [if_neg heq]
      cases dir with
      | nil => exact absurd (isWithinAppRoot_nil hroot).symm heq
      | cons c t =>
        have hwt : isWithinAppRoot t appRoot = true := by
          rw [isWithinAppRoot_cons] at hroot
          rcases Bool.or_eq_true_iff.mp hroot with h | h
          · exact absurd (of_decide_eq_true h) heq
          · exact h
        obtain ⟨hne_co, hiff⟩ := resolveFallbackGo_false_spec fs b appRoot t hwt
        have hexeq :
            (∃ a, isWithinAppRoot t a = true ∧ isWithinAppRoot a appRoot = true ∧
              hasFallbackFile fs a b = true) ↔
            (∃ a, a ≠ c :: t ∧ isWithinAppRoot (c :: t) a = true ∧
              isWithinAppRoot a appRoot = true ∧ hasFallbackFile fs a b = true) := by
          constructor
          · rintro ⟨a, h1, h2, h3⟩
            have hlen := isWithinAppRoot_length h1
            refine ⟨a, ?_, ?_, h2, h3⟩
            · intro hcon
              rw [hcon] at hlen
              simp at hlen
            · rw [isWithinAppRoot_cons]; simp [h1]
          · rintro ⟨a, hne, h1, h2, h3⟩
            rw [isWithinAppRoot_cons] at h1
            rcases Bool.or_eq_true_iff.mp h1 with h | h
            · exact absurd (of_decide_eq_true h).symm hne
            · exact ⟨a, h, h2, h3⟩
        refine ⟨?_, ?_, ?_, htrace⟩
        · simp only
          constructor
          · intro h; exact absurd h hne_co
          · intro h; rw [hff] at h; exact absurd h (by simp)
        · simp only
          rw [hiff, hexeq]
          constructor
          · intro h; exact ⟨hff, h⟩
          · rintro ⟨-, h⟩; exact h
        · simp only
          constructor
          · intro h
            refine ⟨hff, ?_⟩
            rw [← hexeq]
            intro hex
            rw [← hiff] at hex
            rw [h] at hex
            exact absurd hex (by simp)
          · rintro ⟨-, hnex⟩
            rw [← hexeq] at hnex
            rw [← hiff] at hnex
            rcases hst : (resolveFallbackGo fs b appRoot t false).1 with _ | _ | _
            · exact absurd hst hne_co
            · exact absurd hst hnex
            · rfl

/-- Concrete sample filesystem: only `app/loading.tsx` exists. -/
def c6SampleFs : Fs := fun d f => decide (d = ["app"] ∧ f = "loading.tsx")

/-- Witness for `c6_fallback_resolution`: view dir `app/blog`, root `app`. -/
theorem c6_witness :
    (resolveFallbackStatus c6SampleFs ["blog", "app"] "loading" ["app"] = .coLocated ↔
      hasFallbackFile c6SampleFs ["blog", "app"] "loading" = true) ∧
    (resolveFallbackStatus c6SampleFs ["blog", "app"] "loading" ["app"] = .inherited ↔
      (hasFallbackFile c6SampleFs ["blog", "app"] "loading" = false ∧
        ∃ a, a ≠ ["blog", "app"] ∧ isWithinAppRoot ["blog", "app"] a = true ∧
          isWithinAppRoot a ["app"] = true ∧ hasFallbackFile c6SampleFs a "loading" = true)) ∧
    (resolveFallbackStatus c6SampleFs ["blog", "app"] "loading" ["app"] = .missing ↔
      (hasFallbackFile c6SampleFs ["blog", "app"] "loading" = false ∧
        ¬ ∃ a, a ≠ ["blog", "app"] ∧ isWithinAppRoot ["blog", "app"] a = true ∧
          isWithinAppRoot a ["app"] = true ∧ hasFallbackFile c6SampleFs a "loading" = true)) ∧
    (∀ p ∈ resolveFallbackTrace c6SampleFs ["blog", "app"] "loading" ["app"],
      isWithinAppRoot p.1 ["app"] = true) :=
  c6_fallback_resolution c6SampleFs "loading" ["blog", "app"] ["app"] (by decide)

/-! ## Method Extractor

`extractHttpMethods` / `stripComments` from `src/lib/page-routes.ts` and the
fixed verb set.  The four export regexes are embedded as deterministic
scanners with the exact leftmost-match / `g`-flag resume semantics of
`RegExp.exec` loops. -/

/-- The fixed 7-verb set (`HTTP_METHODS`), in `Set` insertion order. -/
def HTTP_METHODS : List (List Char) :=
  ["GET".toList, "HEAD".toList, "OPTIONS".toList, "POST".toList,
   "PUT".toList, "PATCH".toList, "DELETE".toList]

/-- Canonical display order (`METHOD_ORDER`), same sequence. -/
def METHOD_ORDER : List (List Char) := HTTP_METHODS

/-- Code-point lexicographic string comparison (model of `localeCompare`). -/
def lcmp : List Char → List Char → Ordering
  | [], [] => .eq
  | [], _ :: _ => .lt
  | _ :: _, [] => .gt
  | a :: ta, b :: tb =>
    if a.toNat < b.toNat then .lt
    else if a.toNat = b.toNat then lcmp ta tb
    else .gt

/-- Consume zero or more JS whitespace characters. -/
def dropWSStar : List Char → List Char
  | [] => []
  | c :: rest => if jsSpace c then dropWSStar rest else c :: rest

/-- Consume one or more JS whitespace characters (`\s+`). -/
def dropWSPlus : List Char → Option (List Char)
  | [] => none
  | c :: rest => if jsSpace c then some (dropWSStar rest) else none

/-- Consume an exact case-sensitive literal. -/
def stripLit : List Char → List Char → Option (List Char)
  | [], s => some s
  | _ :: _, [] => none
  | p :: ps, c :: cs => if c = p then stripLit ps cs else none

/-- Consume an exact literal up to ASCII case (`i` flag). -/
def stripLitCI : List Char → List Char → Option (List Char)
  | [], s => some s
  | _ :: _, [] => none
  | p :: ps, c :: cs => if c.toLower = p.toLower then stripLitCI ps cs else none

/-- Maximal run of identifier-continuation characters. -/
def takeIdentChars : List Char → List Char × List Char
  | [] => ([], [])
  | c :: rest =>
    if isIdentChar c then
      match takeIdentChars rest with
      | (m, r) => (c :: m, r)
    else ([], c :: rest)

/-- `[A-Za-z_$][\w$]*`: one identifier, greedily. -/
def takeIdent : List Char → Option (List Char × List Char)
  | [] => none
  | c :: rest =>
    if isIdentStart c then
      match takeIdentChars rest with
      | (m, r) => some (c :: m, r)
    else none

/-! ### Comment stripping (`stripComments`)

```ts
const COMMENT_BLOCK_PATTERN = /\/\*[\s\S]*?\*\//g
const COMMENT_LINE_PATTERN = /(^|[^\S\r\n])\/\/.*$/gm
function stripComments(source) {
  return source
    .replace(COMMENT_BLOCK_PATTERN, ' ')
    .replace(COMMENT_LINE_PATTERN, (_, prefix = '') => prefix)
}
```

Purely textual (no string-state tracking): block comments become one space,
and on each line the first `//` that sits at line start or after a
non-newline whitespace character erases the rest of the line (keeping the
whitespace prefix).  Inputs are assumed free of `\r` (all inputs in this
development are). -/

/-- Suffix following the first occurrence of the two-character close `*/`. -/
def afterBlockClose : List Char → Option (List Char)
  | [] => none
  | '*' :: '/' :: rest => some rest
  | _ :: rest => afterBlockClose rest

/-- One pass of `/\/\*[\s\S]*?\*\//g → ' '`, fuelled for kernel reduction. -/
def stripBlockFuel : Nat → List Char → List Char
  | 0, s => s
  | _ + 1, [] => []
  | f + 1, '/' :: '*' :: rest =>
    match afterBlockClose rest with
    | some rest2 => ' ' :: stripBlockFuel f rest2
    | none => '/' :: stripBlockFuel f ('*' :: rest)
  | f + 1, c :: rest => c :: stripBlockFuel f rest

def stripBlockComments (s : List Char) : List Char :=
  stripBlockFuel (s.length + 1) s

/-- Split on a separator character (JS `String.prototype.split`). -/
def splitOnChar (sep : Char) : List Char → List (List Char)
  | [] => [[]]
  | c :: rest =>
    if c = sep then [] :: splitOnChar sep rest
    else
      match splitOnChar sep rest with
      | l :: ls => (c :: l) :: ls
      | [] => [[c]]

/-- Join with a separator character. -/
def joinWithChar (sep : Char) : List (List Char) → List Char
  | [] => []
  | [l] => l
  | l :: ls => l ++ sep :: joinWithChar sep ls

/-- A whitespace character eligible as the `[^\S\r\n]` prefix of the
line-comment pattern. -/
def isLinePrefixWS (c : Char) : Bool := jsSpace c && !(c = '\r') && !(c = '\n')

/-- Does the list start with `//`? -/
def startsSlashSlash : List Char → Bool
  | '/' :: '/' :: _ => true
  | _ => false

/-- Scan one line for the first whitespace-prefixed `//`; keep the prefix
character and drop the rest of the line. -/
def cutLineAux : List Char → List Char
  | [] => []
  | c :: rest =>
    if isLinePrefixWS c && startsSlashSlash rest then [c]
    else c :: cutLineAux rest

/-- Apply `/(^|[^\S\r\n])\/\/.*$/gm → prefix` to one line. -/
def cutLineComment (line : List Char) : List Char :=
  if startsSlashSlash line then [] else cutLineAux line

/-- `stripComments`: block comments to one space, then line comments. -/
def stripComments (source : List Char) : List Char :=
  joinWithChar '\n'
    (((splitOnChar '\n' (stripBlockComments source)).map cutLineComment))


/-! ### Export-pattern scanners -/

/-- Open/close brace, written via code points. -/
def obr : Char := Char.ofNat 123

def cbr : Char := Char.ofNat 125

/-- ASCII single quote. -/
def sq : Char := Char.ofNat 39

/-- ASCII double quote. -/
def dq : Char := Char.ofNat 34

/-- ASCII backtick. -/
def btick : Char := Char.ofNat 96

/-- Split at the first close brace: `(text before, text after)`. -/
def takeUntilClose : List Char → Option (List Char × List Char)
  | [] => none
  | c :: rest =>
    if c = cbr then some ([], rest)
    else
      match takeUntilClose rest with
      | some (inner, r) => some (c :: inner, r)
      | none => none

/-- `/\bexport\s+(?:async\s+)?function\s+([A-Za-z_$][\w$]*)/` at one position
(the leading `\b` is checked by the scanner driver).  Returns the captured
name and the remaining text after the match. -/
def matchFunctionAt (s : List Char) : Option (List Char × List Char) :=
  (stripLit "export".toList s).bind fun r1 =>
  (dropWSPlus r1).bind fun r2 =>
    (((stripLit "async".toList r2).bind fun r3 =>
      (dropWSPlus r3).bind fun r4 =>
        (stripLit "function".toList r4).bind fun r5 =>
        (dropWSPlus r5).bind fun r6 => takeIdent r6) <|>
     ((stripLit "function".toList r2).bind fun r5 =>
      (dropWSPlus r5).bind fun r6 => takeIdent r6))

/-- `/\bexport\s+(?:const|let|var)\s+([A-Za-z_$][\w$]*)/` at one position. -/
def matchVarAt (s : List Char) : Option (List Char × List Char) :=
  (stripLit "export".toList s).bind fun r1 =>
  (dropWSPlus r1).bind fun r2 =>
    (((stripLit "const".toList r2).bind fun r3 =>
        (dropWSPlus r3).bind fun r4 => takeIdent r4) <|>
     ((stripLit "let".toList r2).bind fun r3 =>
        (dropWSPlus r3).bind fun r4 => takeIdent r4) <|>
     ((stripLit "var".toList r2).bind fun r3 =>
        (dropWSPlus r3).bind fun r4 => takeIdent r4))

/-- Shared tail of the destructured pattern after the declaration keyword:
`\s*{\s*([^}]+)\s*}\s*=`.  The capture excludes the leading whitespace run
(backtracking keeps at least one character; a whitespace-only interior
yields a whitespace capture, observationally identical downstream). -/
def destructuredTail (r : List Char) : Option (List Char × List Char) :=
  match dropWSStar r with
  | [] => none
  | c :: r4 =>
    if c = obr then
      match takeUntilClose r4 with
      | some (inner, r5) =>
        if inner = [] then none
        else
          match dropWSStar r5 with
          | [] => none
          | e :: r6 =>
            if e = '=' then
              if inner.dropWhile (fun x => jsSpace x) = [] then some (inner, r6)
              else some (inner.dropWhile (fun x => jsSpace x), r6)
            else none
      | none => none
    else none

/-- `/\bexport\s+(?:const|let|var)\s*{\s*([^}]+)\s*}\s*=/` at one position. -/
def matchDestructuredAt (s : List Char) : Option (List Char × List Char) :=
  (stripLit "export".toList s).bind fun r1 =>
  (dropWSPlus r1).bind fun r2 =>
    ((stripLit "const".toList r2).bind destructuredTail) <|>
    ((stripLit "let".toList r2).bind destructuredTail) <|>
    ((stripLit "var".toList r2).bind destructuredTail)

/-- `/\bexport\s*{([^}]+)}/` at one position. -/
def matchNamedAt (s : List Char) : Option (List Char × List Char) :=
  (stripLit "export".toList s).bind fun r1 =>
    match dropWSStar r1 with
    | [] => none
    | c :: r2 =>
      if c = obr then
        match takeUntilClose r2 with
        | some (inner, r3) => if inner = [] then none else some (inner, r3)
        | none => none
      else none

/-- Driver for a `g`-flag `exec` loop: try the pattern at each position in
order (with the `\b` word-boundary check against the previous character),
resume after each match, collect the captures. -/
def scanMatches (matchAt : List Char → Option (List Char × List Char)) :
    Nat → Option Char → List Char → List (List Char)
  | 0, _, _ => []
  | _ + 1, _, [] => []
  | f + 1, prev, c :: rest =>
    if (match prev with | none => true | some p => !(isWordChar p)) then
      match matchAt (c :: rest) with
      | some (cap, rest2) => cap :: scanMatches matchAt f cap.getLast? rest2
      | none => scanMatches matchAt f (some c) rest
    else scanMatches matchAt f (some c) rest

/-- All captures of one pattern over a text (fresh `lastIndex`). -/
def allMatches (matchAt : List Char → Option (List Char × List Char))
    (s : List Char) : List (List Char) :=
  scanMatches matchAt (s.length + 1) none s

/-- JS `String.prototype.trim` (whitespace from both ends). -/
def jsTrim (l : List Char) : List Char :=
  ((l.dropWhile (fun c => jsSpace c)).reverse.dropWhile (fun c => jsSpace c)).reverse

/-- `/^([A-Za-z_$][\w$]*)(?:\s+as\s+([A-Za-z_$][\w$]*))?$/i` applied to one
trimmed specifier; returns the effective exported name (`alias ?? original`)
or `[]` when the entry does not parse. -/
def parseEntryName (entry : List Char) : List Char :=
  match takeIdent entry with
  | none => []
  | some (orig, r) =>
    if r = [] then orig
    else
      match (dropWSPlus r).bind (fun r2 =>
        (stripLitCI "as".toList r2).bind fun r3 =>
        (dropWSPlus r3).bind fun r4 => takeIdent r4) with
      | some (al, r5) => if r5 = [] then al else []
      | none => []

/-- `extractExportedNames`: split a specifier list on commas, trim, parse. -/
def extractExportedNames (list : List Char) : List (List Char) :=
  ((((splitOnChar ',' list).map jsTrim).filter (fun e => e ≠ [])).map
    parseEntryName).filter (fun e => e ≠ [])

/-- The `register` closure: uppercase, keep only fixed verbs, `Set` dedup. -/
def registerMethods (names : List (List Char)) : List (List Char) :=
  names.foldl (fun acc name =>
    if name = [] then acc
    else
      if HTTP_METHODS.contains (name.map Char.toUpper) &&
          !(acc.contains (name.map Char.toUpper)) then
        acc ++ [name.map Char.toUpper]
      else acc) []

/-- `extractHttpMethods(filePath)` on the file's text: strip comments, run
the four pattern loops in order, register every bound name. -/
def extractHttpMethods (source : List Char) : List (List Char) :=
  registerMethods
    (allMatches matchFunctionAt (stripComments source) ++
     allMatches matchVarAt (stripComments source) ++
     ((allMatches matchDestructuredAt (stripComments source)).map
        extractExportedNames).flatten ++
     ((allMatches matchNamedAt (stripComments source)).map
        extractExportedNames).flatten)

/-- `METHOD_ORDER.indexOf`, with `none` for `-1`. -/
def methodIdx (m : List Char) : Option Nat := METHOD_ORDER.indexOf? m

/-- The `sortMethods` comparator as a total boolean order. -/
def methodLe (a b : List Char) : Bool :=
  match methodIdx a, methodIdx b with
  | none, none => !(lcmp a b = .gt)
  | none, some _ => false
  | some _, none => true
  | some i, some j => i ≤ j

/-- `sortMethods`: stable sort by canonical verb order (JS `Array.sort` is
stable; modelled by insertion sort). -/
def sortMethods (ms : List (List Char)) : List (List Char) :=
  List.insertionSort (fun a b => methodLe a b = true) ms


/-- **C4** failing input: a `//` inside a double-quoted string literal,
preceded by a space, followed on the same line by a real handler export. -/
def c4Input : List Char :=
  "const s = \"a //b\"; export function GET() \x7b return 1 \x7d\n".toList

/-- **C4** (code bug).  `stripComments` is a pure regex rewrite with no
string-state tracking: on `c4Input` the `//` inside the string literal is
treated as a comment start, the rest of the line (including the real
`export function GET`) is erased, and the extractor consequently reports no
verbs at all — while the same file without the in-string `//` yields `GET`.
The claim's description (string contents survive stripping unchanged) is
the intended behaviour; the code does not implement it. -/
theorem c4_comment_strip_bug :
    stripComments c4Input = "const s = \"a \n".toList ∧
    stripComments c4Input ≠ c4Input ∧
    extractHttpMethods c4Input = [] ∧
    extractHttpMethods
      "const s = \"ab\"; export function GET() \x7b return 1 \x7d\n".toList =
      ["GET".toList] := by
  refine ⟨by decide, by decide, by decide, by decide⟩

/-! ## Source Mutation Engine

`removeHttpMethod` / `addHttpMethod` from
`src/lib/inspector/file-operations.ts`, embedded as pure text transforms
`content → Except MutError content`.  The caller's read/write pair is
modelled by applying the transform (an `error` result performs no write). -/

/-- Error taxonomy (the source throws `Error` values with these meanings). -/
inductive MutError where
  | invalidMethod
  | methodExists
  | methodNotFound
  | unlocatableBlock
deriving DecidableEq, Repr

/-- Scanner state of `findMatchingBrace`: the five exclusive character
classes plus the brace depth counter. -/
structure ScanSt where
  inS : Bool
  inD : Bool
  inT : Bool
  inL : Bool
  inB : Bool
  depth : Int
deriving DecidableEq, Repr

/-- Result of one `findMatchingBrace` loop iteration: either the matching
close brace is at the current index, or the scan continues (`skip` is the
source's `i++` fast-forward after a comment opener). -/
inductive FmbRes where
  | found : FmbRes
  | cont (st : ScanSt) (skip : Bool) : FmbRes
deriving DecidableEq, Repr

/-- One iteration of the `findMatchingBrace` loop body, with `prev` the
character at `i - 1` (`none` models JS `undefined`) and `la` the lookahead
at `i + 1`. -/
def fmbStep (st : ScanSt) (prev : Option Char) (c : Char) (la : Option Char) : FmbRes :=
  if st.inL = true then
    if c = '\n' then .cont { st with inL := false } false else .cont st false
  else if st.inB = true then
    if prev = some '*' ∧ c = '/' then .cont { st with inB := false } false
    else .cont st false
  else if st.inS = false ∧ st.inD = false ∧ st.inT = false ∧ c = '/' ∧ la = some '/' then
    .cont { st with inL := true } true
  else if st.inS = false ∧ st.inD = false ∧ st.inT = false ∧ c = '/' ∧ la = some '*' then
    .cont { st with inB := true } true
  else if st.inD = false ∧ st.inT = false ∧ c = sq ∧ prev ≠ some '\\' then
    .cont { st with inS := !st.inS } false
  else if st.inS = false ∧ st.inT = false ∧ c = dq ∧ prev ≠ some '\\' then
    .cont { st with inD := !st.inD } false
  else if st.inS = false ∧ st.inD = false ∧ c = btick ∧ prev ≠ some '\\' then
    .cont { st with inT := !st.inT } false
  else if st.inS = true ∨ st.inD = true ∨ st.inT = true then
    .cont st false
  else if c = obr then
    .cont { st with depth := st.depth + 1 } false
  else if c = cbr then
    if st.depth - 1 = 0 then .found else .cont { st with depth := st.depth - 1 } false
  else .cont st false

/-- The `findMatchingBrace` loop, fuelled for kernel reduction.  `i` is the
absolute index of the head of the remaining suffix. -/
def fmbGo : Nat → ScanSt → Option Char → Nat → List Char → Option Nat
  | 0, _, _, _, _ => none
  | _ + 1, _, _, _, [] => none
  | f + 1, st, prev, i, c :: rest =>
    match fmbStep st prev c rest.head? with
    | .found => some i
    | .cont st2 skip =>
      if skip then
        match rest with
        | [] => none
        | d :: rest2 => fmbGo f st2 (some d) (i + 2) rest2
      else fmbGo f st2 (some c) (i + 1) rest

/-- The character before index `i`, JS `code[i-1]` (undefined at `i = 0`). -/
def charBefore (code : List Char) (i : Nat) : Option Char :=
  if i = 0 then none else code.get? (i - 1)

/-- `findMatchingBrace(code, openIndex)`. -/
def findMatchingBrace (code : List Char) (openIndex : Nat) : Option Nat :=
  fmbGo (code.length + 1) ⟨false, false, false, false, false, 0⟩
    (charBefore code openIndex) openIndex (code.drop openIndex)

/-- Scanner state of `findStatementEnd`: three depth counters; the source's
guarded decrements (`if (x > 0) x--`) coincide with `Nat` subtraction. -/
structure FseSt where
  inS : Bool
  inD : Bool
  inT : Bool
  inL : Bool
  inB : Bool
  brace : Nat
  paren : Nat
  bracket : Nat
deriving DecidableEq, Repr

inductive FseRes where
  | stop : FseRes
  | cont (st : FseSt) (skip : Bool) : FseRes
deriving DecidableEq, Repr

/-- One iteration of the `findStatementEnd` loop body. -/
def fseStep (st : FseSt) (prev : Option Char) (c : Char) (la : Option Char) : FseRes :=
  if st.inL = true then
    if c = '\n' then
      if st.brace = 0 ∧ st.paren = 0 ∧ st.bracket = 0 then .stop
      else .cont { st with inL := false } false
    else .cont st false
  else if st.inB = true then
    if prev = some '*' ∧ c = '/' then .cont { st with inB := false } false
    else .cont st false
  else if st.inS = false ∧ st.inD = false ∧ st.inT = false ∧ c = '/' ∧ la = some '/' then
    .cont { st with inL := true } true
  else if st.inS = false ∧ st.inD = false ∧ st.inT = false ∧ c = '/' ∧ la = some '*' then
    .cont { st with inB := true } true
  else if st.inD = false ∧ st.inT = false ∧ c = sq ∧ prev ≠ some '\\' then
    .cont { st with inS := !st.inS } false
  else if st.inS = false ∧ st.inT = false ∧ c = dq ∧ prev ≠ some '\\' then
    .cont { st with inD := !st.inD } false
  else if st.inS = false ∧ st.inD = false ∧ c = btick ∧ prev ≠ some '\\' then
    .cont { st with inT := !st.inT } false
  else if st.inS = true ∨ st.inD = true ∨ st.inT = true then .cont st false
  else if c = obr then .cont { st with brace := st.brace + 1 } false
  else if c = cbr then .cont { st with brace := st.brace - 1 } false
  else if c = '(' then .cont { st with paren := st.paren + 1 } false
  else if c = ')' then .cont { st with paren := st.paren - 1 } false
  else if c = '[' then .cont { st with bracket := st.bracket + 1 } false
  else if c = ']' then .cont { st with bracket := st.bracket - 1 } false
  else if c = ';' then
    if st.brace = 0 ∧ st.paren = 0 ∧ st.bracket = 0 then .stop else .cont st false
  else .cont st false

/-- The `findStatementEnd` loop; returns the cut end (the source returns
`i + 1` at a terminator and `code.length` when it runs off the end). -/
def fseGo : Nat → FseSt → Option Char → Nat → List Char → Nat
  | 0, _, _, i, rest => i + rest.length
  | _ + 1, _, _, i, [] => i
  | f + 1, st, prev, i, c :: rest =>
    match fseStep st prev c rest.head? with
    | .stop => i + 1
    | .cont st2 skip =>
      if skip then
        match rest with
        | [] => i + 2
        | d :: rest2 => fseGo f st2 (some d) (i + 2) rest2
      else fseGo f st2 (some c) (i + 1) rest

/-- `findStatementEnd(code, start)`. -/
def findStatementEnd (code : List Char) (start : Nat) : Nat :=
  fseGo (code.length + 1) ⟨false, false, false, false, false, 0, 0, 0⟩
    (charBefore code start) start (code.drop start)

/-- Length of the leading run of newlines. -/
def countLeadingNl : List Char → Nat
  | '\n' :: rest => countLeadingNl rest + 1
  | _ => 0

/-- `/\n{3,}/g → "\n\n"`: collapse maximal newline runs of three or more. -/
def collapseNl : Nat → List Char → List Char
  | 0, s => s
  | _ + 1, [] => []
  | f + 1, c :: rest =>
    if c = '\n' then
      if countLeadingNl rest + 1 ≥ 3 then
        '\n' :: '\n' :: collapseNl f (rest.drop (countLeadingNl rest))
      else c :: collapseNl f rest
    else c :: collapseNl f rest

/-- JS `String.prototype.trimEnd`. -/
def jsTrimEnd (l : List Char) : List Char :=
  (l.reverse.dropWhile (fun c => jsSpace c)).reverse

/-- `cleanSpacing`: collapse 3+ newlines to 2, trim the end, add one `\n`. -/
def cleanSpacing (code : List Char) : List Char :=
  jsTrimEnd (collapseNl (code.length + 1) code) ++ ['\n']

/-- `removeRange(code, start, end)`. -/
def removeRange (code : List Char) (start stop : Nat) : List Char :=
  cleanSpacing (code.take start ++ code.drop stop)

/-- The post-cut whitespace walk of the function shape: consume whitespace
after the close brace, stopping just past at most one blank line. -/
def wsWalk : Nat → Nat → List Char → Nat
  | 0, e, _ => e
  | _ + 1, e, [] => e
  | f + 1, e, c :: rest =>
    if jsSpace c then
      if c = '\n' ∧ rest.head? = some '\n' then e + 2
      else wsWalk f (e + 1) rest
    else e


/-- `export\s+(?:async\s+)?function\s+VERB\b` at one position (shape 1 of
`removeHttpMethod`; case-sensitive, no leading `\b`). -/
def matchFunctionHeadAt (verb : List Char) (s : List Char) : Bool :=
  match (stripLit "export".toList s).bind (fun r1 =>
    (dropWSPlus r1).bind fun r2 =>
      (((stripLit "async".toList r2).bind fun r3 =>
        (dropWSPlus r3).bind fun r4 =>
        (stripLit "function".toList r4).bind fun r5 =>
        (dropWSPlus r5).bind fun r6 => stripLit verb r6) <|>
       ((stripLit "function".toList r2).bind fun r5 =>
        (dropWSPlus r5).bind fun r6 => stripLit verb r6))) with
  | some r7 =>
    match r7 with
    | [] => true
    | c :: _ => !(isWordChar c)
  | none => false

/-- `export\s+(?:const|let|var)\s+VERB\b` at one position (shape 2). -/
def matchVarHeadAt (verb : List Char) (s : List Char) : Bool :=
  match (stripLit "export".toList s).bind (fun r1 =>
    (dropWSPlus r1).bind fun r2 =>
      (((stripLit "const".toList r2).bind fun r3 =>
        (dropWSPlus r3).bind fun r4 => stripLit verb r4) <|>
       ((stripLit "let".toList r2).bind fun r3 =>
        (dropWSPlus r3).bind fun r4 => stripLit verb r4) <|>
       ((stripLit "var".toList r2).bind fun r3 =>
        (dropWSPlus r3).bind fun r4 => stripLit verb r4))) with
  | some r7 =>
    match r7 with
    | [] => true
    | c :: _ => !(isWordChar c)
  | none => false

/-- Index of the leftmost position satisfying a positional matcher
(`RegExp.exec` without a sticky flag). -/
def findHeadIdx (p : List Char → Bool) : Nat → Nat → List Char → Option Nat
  | 0, _, _ => none
  | _ + 1, i, [] => if p [] then some i else none
  | f + 1, i, c :: rest => if p (c :: rest) then some i else findHeadIdx p f (i + 1) rest

/-- `functionPattern.exec(updated)?.index`. -/
def findFunctionHead (content verb : List Char) : Option Nat :=
  findHeadIdx (matchFunctionHeadAt verb) (content.length + 1) 0 content

/-- `varPattern.exec(updated)?.index`. -/
def findVarHead (content verb : List Char) : Option Nat :=
  findHeadIdx (matchVarHeadAt verb) (content.length + 1) 0 content

/-- `code.indexOf(ch, start)`. -/
def firstIdxOfAux (ch : Char) : Nat → List Char → Option Nat
  | _, [] => none
  | i, c :: rest => if c = ch then some i else firstIdxOfAux ch (i + 1) rest

def indexOfFrom (ch : Char) (code : List Char) (start : Nat) : Option Nat :=
  firstIdxOfAux ch start (code.drop start)

/-- Split `entry` on every `/\s+as\s+/i` separator (JS `String.split`). -/
def asSepAt (s : List Char) : Option (List Char) :=
  (dropWSPlus s).bind fun r =>
    (stripLitCI "as".toList r).bind fun r2 => dropWSPlus r2

def findAsSep : List Char → Option (List Char × List Char)
  | [] => none
  | c :: rest =>
    match asSepAt (c :: rest) with
    | some after => some ([], after)
    | none =>
      match findAsSep rest with
      | some (pre, after) => some (c :: pre, after)
      | none => none

def splitAsCI : Nat → List Char → List (List Char)
  | 0, s => [s]
  | f + 1, s =>
    match findAsSep s with
    | some (pre, after) => pre :: splitAsCI f after
    | none => [s]

/-- One specifier-list entry binds `verb` (original name or `as`-alias,
case-insensitive), as tested by shape 3 of `removeHttpMethod`. -/
def entryMatchesVerb (verb entry : List Char) : Bool :=
  (match ((splitAsCI (entry.length + 1) entry).map jsTrim).get? 0 with
   | some o => o.map Char.toUpper = verb
   | none => false) ||
  (match ((splitAsCI (entry.length + 1) entry).map jsTrim).get? 1 with
   | some a => a.map Char.toUpper = verb
   | none => false)

/-- Leftmost `/export\s*{([^}]+)}/` match from an index:
`(match start, match length, capture)`. -/
def findNamedMatch : Nat → Nat → List Char → Option (Nat × Nat × List Char)
  | 0, _, _ => none
  | _ + 1, _, [] => none
  | f + 1, i, c :: rest =>
    match matchNamedAt (c :: rest) with
    | some (inner, rest2) => some (i, (c :: rest).length - rest2.length, inner)
    | none => findNamedMatch f (i + 1) rest

/-- Join with a multi-character separator. -/
def joinWithSep (sep : List Char) : List (List Char) → List Char
  | [] => []
  | [l] => l
  | l :: ls => l ++ sep ++ joinWithSep sep ls

/-- The shape-3 `exec` loop of `removeHttpMethod`: find the first named
export list containing the verb, drop the entry (or the whole statement),
rewrite; `none` when no list contains the verb. -/
def removeNamedLoop (verb full : List Char) : Nat → Nat → Option (List Char)
  | 0, _ => none
  | f + 1, pos =>
    match findNamedMatch (full.length + 1) pos (full.drop pos) with
    | none => none
    | some (rel, mlen, inner) =>
      if (((splitOnChar ',' inner).map jsTrim).filter (fun e => e ≠ [])).filter
          (fun e => !(entryMatchesVerb verb e)) =
         ((splitOnChar ',' inner).map jsTrim).filter (fun e => e ≠ []) then
        removeNamedLoop verb full f (pos + rel + mlen)
      else
        if (((splitOnChar ',' inner).map jsTrim).filter (fun e => e ≠ [])).filter
            (fun e => !(entryMatchesVerb verb e)) = [] then
          some (removeRange full (pos + rel) (pos + rel + mlen))
        else
          some (cleanSpacing
            (full.take (pos + rel) ++
             "export \x7b ".toList ++
             joinWithSep ", ".toList
               ((((splitOnChar ',' inner).map jsTrim).filter (fun e => e ≠ [])).filter
                 (fun e => !(entryMatchesVerb verb e))) ++
             " \x7d".toList ++
             full.drop (pos + rel + mlen)))

/-- `removeHttpMethod` as a pure text transform.  Shape order: exported
function (brace-matched cut), exported variable (statement-end cut), named
export list (entry pruning); otherwise `MethodNotFoundError`. -/
def removeHttpMethodText (content : List Char) (method : List Char) :
    Except MutError (List Char) :=
  if !(HTTP_METHODS.contains (method.map Char.toUpper)) then .error .invalidMethod
  else
    match findFunctionHead content (method.map Char.toUpper) with
    | some idx =>
      match indexOfFrom obr content idx with
      | none => .error .unlocatableBlock
      | some openB =>
        match findMatchingBrace content openB with
        | none => .error .unlocatableBlock
        | some closeB =>
          .ok (removeRange content idx
            (wsWalk (content.length + 1) (closeB + 1) (content.drop (closeB + 1))))
    | none =>
      match findVarHead content (method.map Char.toUpper) with
      | some idx => .ok (removeRange content idx (findStatementEnd content idx))
      | none =>
        match removeNamedLoop (method.map Char.toUpper) content (content.length + 2) 0 with
        | some updated => .ok updated
        | none => .error .methodNotFound

/-- The write-back wrapper: an `error` result leaves the file unchanged. -/
def removeHttpMethodApply (content : List Char) (method : List Char) : List Char :=
  match removeHttpMethodText content method with
  | .ok updated => updated
  | .error _ => content


/-! ### `addHttpMethod` -/

/-- `/\bexport\s+(?:async\s+)?(?:function|const)\s+VERB\b/i` at one
position (the duplicate-export check; leading `\b` checked by the driver). -/
def matchConflictAt (verb : List Char) (s : List Char) : Bool :=
  match (stripLitCI "export".toList s).bind (fun r1 =>
    (dropWSPlus r1).bind fun r2 =>
      (((stripLitCI "async".toList r2).bind fun r3 =>
        (dropWSPlus r3).bind fun r4 =>
        ((stripLitCI "function".toList r4) <|> (stripLitCI "const".toList r4)).bind fun r5 =>
        (dropWSPlus r5).bind fun r6 => stripLitCI verb r6) <|>
       (((stripLitCI "function".toList r2) <|> (stripLitCI "const".toList r2)).bind fun r5 =>
        (dropWSPlus r5).bind fun r6 => stripLitCI verb r6))) with
  | some r7 =>
    match r7 with
    | [] => true
    | c :: _ => !(isWordChar c)
  | none => false

/-- Scan every position with the `\b` pre-boundary for a positional match. -/
def anyWithBoundary (p : List Char → Bool) : Nat → Option Char → List Char → Bool
  | 0, _, _ => false
  | _ + 1, _, [] => false
  | f + 1, prev, c :: rest =>
    if (match prev with | none => true | some q => !(isWordChar q)) && p (c :: rest) then
      true
    else anyWithBoundary p f (some c) rest

/-- `exportPattern.test(content)` of `addHttpMethod`. -/
def existsConflict (verb content : List Char) : Bool :=
  anyWithBoundary (matchConflictAt verb) (content.length + 1) none content

/-- Shared tail of the two import-line patterns after the leading
keywords: `\{[^}]*\}\s+from ['"]next\/server['"]` (note the single literal
space after `from`). -/
def importLineTail (r2 : List Char) : Option (List Char) :=
  match r2 with
  | c :: r3 =>
    if c = obr then
      (takeUntilClose r3).bind fun pr =>
        (dropWSPlus pr.2).bind fun r5 =>
        (stripLit "from ".toList r5).bind fun r6 =>
          match r6 with
          | q :: r7 =>
            if q = sq ∨ q = dq then
              (stripLit "next/server".toList r7).bind fun r8 =>
                match r8 with
                | q2 :: r9 => if q2 = sq ∨ q2 = dq then some r9 else none
                | [] => none
            else none
          | [] => none
    else none
  | [] => none

/-- `/^\s*import\s+\{[^}]*\}\s+from ['"]next\/server['"]/.test(line)`. -/
def isValueImportLine (line : List Char) : Bool :=
  match (stripLit "import".toList (dropWSStar line)).bind (fun r1 =>
    (dropWSPlus r1).bind importLineTail) with
  | some _ => true
  | none => false

/-- `/^\s*import\s+type\s+\{[^}]*\}\s+from ['"]next\/server['"]/.test(line)`. -/
def isTypeImportLine (line : List Char) : Bool :=
  match (stripLit "import".toList (dropWSStar line)).bind (fun r1 =>
    (dropWSPlus r1).bind fun r2 =>
    (stripLit "type".toList r2).bind fun r3 =>
    (dropWSPlus r3).bind importLineTail) with
  | some _ => true
  | none => false


/-- Split a line around the first `/\{([^}]+)\}/` match:
`(before, capture, after)`. -/
def findBraceSplit : List Char → Option (List Char × List Char × List Char)
  | [] => none
  | c :: rest =>
    if c = obr then
      match takeUntilClose rest with
      | some (inner, after) =>
        if inner ≠ [] then some ([], inner, after)
        else
          match findBraceSplit rest with
          | some (pre, inner2, after2) => some (c :: pre, inner2, after2)
          | none => none
      | none => none
    else
      match findBraceSplit rest with
      | some (pre, inner2, after2) => some (c :: pre, inner2, after2)
      | none => none

/-- `replace(/^type\s+/, '')` on a trimmed specifier. -/
def stripTypePrefix (s : List Char) : List Char :=
  match (stripLit "type".toList s).bind dropWSPlus with
  | some r => r
  | none => s

/-- `hasSpecifier(line, name)`. -/
def hasSpecifier (line name : List Char) : Bool :=
  match findBraceSplit line with
  | none => false
  | some (_, inner, _) =>
    ((splitOnChar ',' inner).map (fun s => stripTypePrefix (jsTrim s))).contains name

/-- `Array.from(new Set(xs))`: dedup preserving first occurrence. -/
def dedupPreserve (xs : List (List Char)) : List (List Char) :=
  xs.foldl (fun acc x => if acc.contains x then acc else acc ++ [x]) []

/-- `addSpecifier(line, name, asType)`. -/
def addSpecifier (line name : List Char) (asType : Bool) : List Char :=
  match findBraceSplit line with
  | none => line
  | some (before, inner, after) =>
    if (((splitOnChar ',' inner).map jsTrim).filter (fun s => s ≠ [])).any
        (fun s => stripTypePrefix s = name) then line
    else
      before ++ [obr, ' '] ++
        joinWithSep ", ".toList
          (dedupPreserve
            ((((splitOnChar ',' inner).map jsTrim).filter (fun s => s ≠ [])) ++
             [if asType then "type ".toList ++ name else name])) ++
        [' ', cbr] ++ after

/-- Maximal run of word characters (`\w+`). -/
def dropWordStar : List Char → List Char
  | [] => []
  | c :: rest => if isWordChar c then dropWordStar rest else c :: rest

def takeWordPlus : List Char → Option (List Char)
  | [] => none
  | c :: rest => if isWordChar c then some (dropWordStar rest) else none

/-- `/^['"]use\s+\w+['"];?$/.test(line.trim())`. -/
def isUseDirective (line : List Char) : Bool :=
  match jsTrim line with
  | [] => false
  | q :: rest =>
    if q = sq ∨ q = dq then
      match (stripLit "use".toList rest).bind (fun r1 =>
          (dropWSPlus r1).bind takeWordPlus) with
      | some (q2 :: r4) =>
        if (q2 = sq ∨ q2 = dq) ∧ (r4 = [] ∨ r4 = [';']) then true else false
      | _ => false
    else false

/-- `findInsertIndex()`: skip the leading `use`-directive lines. -/
def countLeadingUse : List (List Char) → Nat
  | [] => 0
  | l :: rest => if isUseDirective l then countLeadingUse rest + 1 else 0

/-- `lines.splice(i, 0, l)`. -/
def insertAt (lines : List (List Char)) (i : Nat) (l : List Char) : List (List Char) :=
  lines.take i ++ [l] ++ lines.drop i

/-- The inserted import statements and the handler stub template. -/
def valueImportStmt : List Char :=
  "import \x7b NextResponse \x7d from \x27next/server\x27".toList

def typeImportStmt : List Char :=
  "import type \x7b NextRequest \x7d from \x27next/server\x27".toList

def methodTemplate (upper : List Char) : List Char :=
  "\nexport async function ".toList ++ upper ++
  "(request: NextRequest) \x7b\n  // TODO: Implement ".toList ++ upper ++
  " handler\n  return NextResponse.json(\x7b message: \x27".toList ++ upper ++
  " handler\x27 \x7d)\n\x7d\n".toList

/-- The import-adjustment and stub-append body of `addHttpMethod`
(executed only when the verb is valid and no conflicting export exists). -/
def addHttpMethodBody (upper content : List Char) : List Char :=
  joinAndAppend
    (splitOnChar '\n' content)
where
  joinAndAppend (lines0 : List (List Char)) : List Char :=
    afterImports lines0 (lines0.findIdx? isValueImportLine) (lines0.findIdx? isTypeImportLine)
  afterImports (lines0 : List (List Char)) (vIdx tIdx : Option Nat) : List Char :=
    withInserts
      (match tIdx with
       | some t =>
         (match vIdx with
          | some v =>
            (lines0.set v
              (addSpecifier (addSpecifier (lines0.getD v []) "NextResponse".toList false)
                "NextRequest".toList true))
          | none => lines0).set t
            (addSpecifier
              ((match vIdx with
                | some v =>
                  (lines0.set v
                    (addSpecifier
                      (addSpecifier (lines0.getD v []) "NextResponse".toList false)
                      "NextRequest".toList true))
                | none => lines0).getD t [])
              "NextRequest".toList false)
       | none =>
         match vIdx with
         | some v =>
           lines0.set v
             (addSpecifier (addSpecifier (lines0.getD v []) "NextResponse".toList false)
               "NextRequest".toList true)
         | none => lines0)
      vIdx tIdx
  withInserts (lines2 : List (List Char)) (vIdx tIdx : Option Nat) : List Char :=
    finish
      (withTypeInsert
        (if !(lines2.any (fun l => isValueImportLine l && hasSpecifier l "NextResponse".toList)) then
          insertAt lines2
            (match vIdx with
             | some v => v + 1
             | none =>
               match tIdx with
               | some t => t + 1
               | none => countLeadingUse lines2)
            valueImportStmt
        else lines2)
        (lines2.any (fun l =>
          (isValueImportLine l || isTypeImportLine l) && hasSpecifier l "NextRequest".toList)))
  withTypeInsert (lines3 : List (List Char)) (hadNextRequest : Bool) : List (List Char) :=
    if !hadNextRequest then insertAt lines3 (countLeadingUse lines3) typeImportStmt
    else lines3
  finish (lines4 : List (List Char)) : List Char :=
    (fun c2 => (if c2.getLast? = some '\n' then c2 else c2 ++ ['\n']) ++ methodTemplate upper)
      (joinWithChar '\n' lines4)

/-- `addHttpMethod` as a pure text transform. -/
def addHttpMethodText (content : List Char) (method : List Char) :
    Except MutError (List Char) :=
  if !(HTTP_METHODS.contains (method.map Char.toUpper)) then .error .invalidMethod
  else if existsConflict (method.map Char.toUpper) content then .error .methodExists
  else .ok (addHttpMethodBody (method.map Char.toUpper) content)


instance exceptDecEq {e a : Type} [DecidableEq e] [DecidableEq a] :
    DecidableEq (Except e a) := fun x y =>
  match x, y with
  | .ok u, .ok v =>
    if h : u = v then isTrue (by rw [h]) else isFalse (by simp [h])
  | .error u, .error v =>
    if h : u = v then isTrue (by rw [h]) else isFalse (by simp [h])
  | .ok _, .error _ => isFalse (by simp)
  | .error _, .ok _ => isFalse (by simp)

/-! ## C2: brace-depth safety of the function-shape cut -/

/-- The spec's brace-safety example: a handler whose body contains a close
brace inside a string literal, followed by another top-level handler. -/
def c2Input : List Char :=
  "export function GET()\x7b return Response.json(\x7bmsg: \"a \x7d b\"\x7d) \x7d\nexport function POST() \x7b return 1 \x7d\n".toList

/-- **C2**.  (i) One step of the `findMatchingBrace` scanner taken in any
non-Code state (inside a string or a comment) never reports the matching
close brace and never changes the depth counter — so a `}` inside a string
or comment cannot terminate the cut early.  (ii) On the spec's concrete
example the function shape of `removeHttpMethod` excises exactly the `GET`
function (whose body contains the string `"a } b"`) and leaves the other
top-level statement intact, as re-checked by the Method Extractor. -/
theorem c2_brace_safety :
    (∀ (st : ScanSt) (prev : Option Char) (c : Char) (la : Option Char),
        (st.inS || st.inD || st.inT || st.inL || st.inB) = true →
        fmbStep st prev c la ≠ .found ∧
        (∀ st2 skip, fmbStep st prev c la = .cont st2 skip → st2.depth = st.depth)) ∧
    removeHttpMethodText c2Input "GET".toList =
      .ok "export function POST() \x7b return 1 \x7d\n".toList ∧
    extractHttpMethods "export function POST() \x7b return 1 \x7d\n".toList =
      ["POST".toList] := by
  refine ⟨?_, by decide, by decide⟩
  intro st prev c la h
  unfold fmbStep
  by_cases h4 : st.inL = true
  · rw [if_pos h4]
    by_cases hc : c = '\n'
    · rw [if_pos hc]; exact ⟨(fun hh => nomatch hh), (fun st2 sk hco => by cases hco; rfl)⟩
    · rw [if_neg hc]; exact ⟨(fun hh => nomatch hh), (fun st2 sk hco => by cases hco; rfl)⟩
  · rw [if_neg h4]
    by_cases h5 : st.inB = true
    · rw [if_pos h5]
      by_cases hpc : prev = some '*' ∧ c = '/'
      · rw [if_pos hpc]; exact ⟨(fun hh => nomatch hh), (fun st2 sk hco => by cases hco; rfl)⟩
      · rw [if_neg hpc]; exact ⟨(fun hh => nomatch hh), (fun st2 sk hco => by cases hco; rfl)⟩
    · rw [if_neg h5]
      have hstr : st.inS = true ∨ st.inD = true ∨ st.inT = true := by
        simp only [Bool.or_eq_true] at h
        rcases h with ((((h | h) | h) | h) | h)
        · exact Or.inl h
        · exact Or.inr (Or.inl h)
        · exact Or.inr (Or.inr h)
        · exact absurd h h4
        · exact absurd h h5
      have hns : ¬ (st.inS = false ∧ st.inD = false ∧ st.inT = false ∧
          c = '/' ∧ la = some '/') := by
        rintro ⟨hS, hD, hT, -, -⟩
        rcases hstr with hh | hh | hh <;> simp_all
      have hnb : ¬ (st.inS = false ∧ st.inD = false ∧ st.inT = false ∧
          c = '/' ∧ la = some '*') := by
        rintro ⟨hS, hD, hT, -, -⟩
        rcases hstr with hh | hh | hh <;> simp_all
      rw [if_neg hns, if_neg hnb]
      by_cases hq1 : st.inD = false ∧ st.inT = false ∧ c = sq ∧ prev ≠ some '\\'
      · rw [if_pos hq1]; exact ⟨(fun hh => nomatch hh), (fun st2 sk hco => by cases hco; rfl)⟩
      · rw [if_neg hq1]
        by_cases hq2 : st.inS = false ∧ st.inT = false ∧ c = dq ∧ prev ≠ some '\\'
        · rw [if_pos hq2]
          exact ⟨(fun hh => nomatch hh), (fun st2 sk hco => by cases hco; rfl)⟩
        · rw [if_neg hq2]
          by_cases hq3 : st.inS = false ∧ st.inD = false ∧ c = btick ∧ prev ≠ some '\\'
          · rw [if_pos hq3]
            exact ⟨(fun hh => nomatch hh), (fun st2 sk hco => by cases hco; rfl)⟩
          · rw [if_neg hq3, if_pos hstr]
            exact ⟨(fun hh => nomatch hh), (fun st2 sk hco => by cases hco; rfl)⟩

/-- Witness for `c2_brace_safety`: one scanner step on a `}` while inside a
double-quoted string (depth 2) neither returns nor changes the depth. -/
theorem c2_witness :
    fmbStep ⟨false, true, false, false, false, 2⟩ none cbr none ≠ .found ∧
    (∀ st2 skip, fmbStep ⟨false, true, false, false, false, 2⟩ none cbr none =
        .cont st2 skip →
      st2.depth = (⟨false, true, false, false, false, 2⟩ : ScanSt).depth) :=
  c2_brace_safety.1 ⟨false, true, false, false, false, 2⟩ none cbr none (by decide)

/-! ## C9: extractor case-insensitive, remover case-sensitive -/

/-- A handler file whose sole handler is `export function get` (lowercase). -/
def c9Input : List Char := "export function get() \x7b return 1 \x7d\n".toList

/-- **C9**.  The Method Extractor uppercases bound names before checking the
verb set, so it reports `GET` for `export function get`; but the function and
variable shapes of `removeHttpMethod` match only the uppercase spelling, and
the named-export shape does not apply, so `RemoveMethod(file, "GET")` fails
with `MethodNotFoundError` and the file is unchanged. -/
theorem c9_case_mismatch :
    extractHttpMethods c9Input = ["GET".toList] ∧
    removeHttpMethodText c9Input "GET".toList = .error .methodNotFound ∧
    removeHttpMethodApply c9Input "GET".toList = c9Input := by
  refine ⟨by decide, by decide, by decide⟩

/-! ## C8: RemoveMethod with no matching shape -/

/-- **C8**.  For a verb in the fixed set: when the function shape, the
variable shape, and the named-export pruning loop of `removeHttpMethod` all
fail to match, the call fails with `MethodNotFoundError` and performs no
write — the file content is left exactly as it was. -/
theorem c8_remove_not_found (content method : List Char)
    (hv : HTTP_METHODS.contains (method.map Char.toUpper) = true)
    (h1 : findFunctionHead content (method.map Char.toUpper) = none)
    (h2 : findVarHead content (method.map Char.toUpper) = none)
    (h3 : removeNamedLoop (method.map Char.toUpper) content (content.length + 2) 0 = none) :
    removeHttpMethodText content method = .error .methodNotFound ∧
    removeHttpMethodApply content method = content := by
  have herr : removeHttpMethodText content method = .error .methodNotFound := by
    unfold removeHttpMethodText
    rw [hv, h1, h2, h3]
    rfl
  exact ⟨herr, by rw [removeHttpMethodApply, herr]⟩

/-- Witness for `c8_remove_not_found` on a file with no exports at all. -/
theorem c8_witness :
    removeHttpMethodText "const x = 1\n".toList "GET".toList = .error .methodNotFound ∧
    removeHttpMethodApply "const x = 1\n".toList "GET".toList = "const x = 1\n".toList :=
  c8_remove_not_found "const x = 1\n".toList "GET".toList
    (by decide) (by decide) (by decide) (by decide)

/-! ## C3: AddMethod conflict detection -/

/-- A handler file binding `GET` through a named-export list only. -/
def c3InputNamed : List Char := "export \x7b GET \x7d\n".toList

/-- A handler file binding `GET` through `export let` only. -/
def c3InputLet : List Char := "export let GET = 1\n".toList

/-- **C3** counterexample.  Both files bind `GET` in one of the §4.5 export
shapes (the extractor reports it), yet `addHttpMethod` does not fail with
`MethodExistsError`: its duplicate check matches only
`export [async] (function|const) VERB`, so named-export lists and
`let`/`var` declarations slip through and the file is rewritten. -/
theorem c3_counterexample :
    extractHttpMethods c3InputNamed = ["GET".toList] ∧
    addHttpMethodText c3InputNamed "GET".toList ≠ .error .methodExists ∧
    extractHttpMethods c3InputLet = ["GET".toList] ∧
    addHttpMethodText c3InputLet "GET".toList ≠ .error .methodExists := by
  refine ⟨by decide, by decide, by decide, by decide⟩

/-- **C3** (amended).  For every file content and verb, `AddMethod` fails
with `MethodExistsError` exactly when the verb is in the fixed set and the
content matches `/\bexport\s+(?:async\s+)?(?:function|const)\s+VERB\b/i`
somewhere — i.e. only the exported-function and exported-`const` shapes
(case-insensitively) trigger the conflict; destructured bindings, `let`/
`var` declarations and named-export lists do not, and the stub is appended
despite them. -/
theorem c3_add_method_exists (content method : List Char) :
    addHttpMethodText content method = .error .methodExists ↔
    (HTTP_METHODS.contains (method.map Char.toUpper) = true ∧
     existsConflict (method.map Char.toUpper) content = true) := by
  unfold addHttpMethodText
  by_cases hv : HTTP_METHODS.contains (method.map Char.toUpper) = true
  · by_cases hc : existsConflict (method.map Char.toUpper) content = true
    · simp [hv, hc]
    · have hcf : existsConflict (method.map Char.toUpper) content = false := by
        simpa using hc
      have hm : (method.map Char.toUpper) ∈ HTTP_METHODS := by simpa using hv
      simp [hv, hcf, hm]
  · have hm : ¬ ((method.map Char.toUpper) ∈ HTTP_METHODS) := by simpa using hv
    simp [hm]

/-! ## C7: AddMethod / RemoveMethod round trip -/

/-- A handler file exporting only `GET`, whose leading line comment contains
the text `reexport function POST`.  The extractor (comment-stripping) does
not report `POST`, so the file satisfies the round-trip precondition. -/
def c7Input : List Char :=
  "// reexport function POST\nexport function GET() \x7b return 1 \x7d\n".toList

/-- **C7** (code bug).  On `c7Input` the extractor reports exactly `GET`
beforehand, `AddMethod(f, POST)` succeeds (its word-bounded check does not
match inside `reexport`), but `RemoveMethod(f, POST)` then matches the
unbounded pattern `export\s+function\s+POST` **inside the line comment**,
takes the next `{` (the body of `GET`) as the block to excise, and cuts from
the comment through GET's body.  The resulting file extracts to the empty
verb set: POST is gone only incidentally and GET — present before the round
trip — has been destroyed, contradicting the claim. -/
theorem c7_round_trip_bug :
    extractHttpMethods c7Input = ["GET".toList] ∧
    ((addHttpMethodText c7Input "POST".toList).bind
      (fun g => removeHttpMethodText g "POST".toList)).map extractHttpMethods =
      .ok [] := by
  refine ⟨by decide, ?_⟩
  set_option maxRecDepth 10000 in decide

/-! ## Route Discovery over a filesystem tree

The filesystem is a finite tree; paths are root-relative segment lists,
root segment first.  `readdir` yields the entry list in order (the source
guarantees no particular order, so theorems quantify over all trees). -/

mutual
inductive FSNode where
  | file : List Char → FSNode
  | dir : FSEntries → FSNode
deriving DecidableEq

inductive FSEntries where
  | nil : FSEntries
  | cons : String → FSNode → FSEntries → FSEntries
deriving DecidableEq
end

/-- `SKIP_DIRECTORIES` from `src/lib/utils.ts`. -/
def SKIP_DIRECTORIES : List String :=
  ["node_modules", ".git", ".next", "dist", "build", ".turbo", ".vercel",
   "out", "coverage"]

/-- Filesystem operations the discovery pipelines may perform. -/
inductive FsOp where
  | readdir : List String → FsOp
  | statF : List String → FsOp
  | readFile : List String → FsOp
  | writeFile : List String → List Char → FsOp
  | unlink : List String → FsOp
deriving DecidableEq, Repr

mutual
/-- `walk(current)` on one node: a directory emits its `readdir` and
recurses; calling it on a file yields nothing (the walk only ever recurses
into directory entries). -/
def goNode (isTarget : String → Bool) (entryPath : List String) :
    FSNode → List (List String) × List FsOp
  | .file _ => ([], [])
  | .dir sub =>
    ((goEntries isTarget entryPath sub).1,
     FsOp.readdir entryPath :: (goEntries isTarget entryPath sub).2)

/-- The entry loop of `walk`: prune skip-set directories, recurse into the
rest, collect matching regular files. -/
def goEntries (isTarget : String → Bool) (dirPath : List String) :
    FSEntries → List (List String) × List FsOp
  | .nil => ([], [])
  | .cons name node rest =>
    match node with
    | .dir _ =>
      if SKIP_DIRECTORIES.contains name then goEntries isTarget dirPath rest
      else
        ((goNode isTarget (dirPath ++ [name]) node).1 ++
           (goEntries isTarget dirPath rest).1,
         (goNode isTarget (dirPath ++ [name]) node).2 ++
           (goEntries isTarget dirPath rest).2)
    | .file _ =>
      if isTarget name then
        ((dirPath ++ [name]) :: (goEntries isTarget dirPath rest).1,
         (goEntries isTarget dirPath rest).2)
      else goEntries isTarget dirPath rest
end

/-- `findRouteFiles` / `findPageFiles`: depth-first walk from the root. -/
def walkFS (isTarget : String → Bool) (root : FSNode) :
    List (List String) × List FsOp :=
  goNode isTarget [] root

/-- Entry lookup in a directory listing. -/
def lookupEntry : FSEntries → String → Option FSNode
  | .nil, _ => none
  | .cons name node rest, seg =>
    if name = seg then some node else lookupEntry rest seg

/-- Resolve a path to a node. -/
def getNode (n : FSNode) : List String → Option FSNode
  | [] => some n
  | seg :: rest =>
    match n with
    | .file _ => none
    | .dir entries =>
      match lookupEntry entries seg with
      | some child => getNode child rest
      | none => none

/-- Read a file's content (the pipelines only read paths produced by the
walk, which exist). -/
def readFileContent (root : FSNode) (p : List String) : List Char :=
  match getNode root p with
  | some (.file content) => content
  | _ => []

/-- The tree as an abstract `Fs` for the Fallback Resolver (which uses
deepest-first directory paths). -/
def treeFs (root : FSNode) : Fs := fun dirRev fname =>
  match getNode root (dirRev.reverse ++ [fname]) with
  | some (.file _) => true
  | _ => false

/-- Index of the last occurrence of `x` (`Array.prototype.lastIndexOf`). -/
def lastIdxOfAux (x : String) : Nat → Option Nat → List String → Option Nat
  | _, acc, [] => acc
  | i, acc, s :: rest => lastIdxOfAux x (i + 1) (if s = x then some i else acc) rest

def lastIdxOf (x : String) (l : List String) : Option Nat :=
  lastIdxOfAux x 0 none l

/-- `path.parse(name)`: split off the extension at the last dot, unless the
dot is the first character (hidden files have no extension). -/
def lastDotIdx : Nat → Option Nat → List Char → Option Nat
  | _, acc, [] => acc
  | i, acc, c :: rest => lastDotIdx (i + 1) (if c = '.' then some i else acc) rest

def splitExt (name : List Char) : List Char × List Char :=
  match lastDotIdx 0 none name with
  | some i => if i = 0 then (name, []) else (name.take i, name.drop i)
  | none => (name, [])

def ROUTE_EXTENSIONS : List String := [".ts", ".tsx", ".js", ".jsx"]

/-- `isRouteFile(fileName)`: basename `route` with a route extension. -/
def isRouteFileName (name : String) : Bool :=
  (splitExt name.toList).1 = "route".toList ∧
  ROUTE_EXTENSIONS.contains (String.mk (splitExt name.toList).2)

/-- `isPageFile(fileName)`: basename `page` with a page extension. -/
def isPageFileName (name : String) : Bool :=
  (splitExt name.toList).1 = "page".toList ∧
  FALLBACK_EXTENSIONS.contains (String.mk (splitExt name.toList).2)

/-- `RouteInfo` (handler route record). -/
structure RouteInfo where
  file : List Char
  methods : List (List Char)
  path : List Char
deriving DecidableEq, Repr

/-- `PageInfo` (view route record). -/
structure PageInfo where
  file : List Char
  path : List Char
  loading : FallbackStatus
  error : FallbackStatus
deriving DecidableEq, Repr

/-- `deriveRouteMeta`: locate the rightmost `app` segment, classify the
directory segments strictly between it and the file, require a leading
`api` segment, and build the route path and normalized file path. -/
def deriveRouteMeta (segments : List String) : Option (List Char × List Char) :=
  match lastIdxOf "app" segments with
  | none => none
  | some appIndex =>
    match ((segments.drop (appIndex + 1)).dropLast).filter
        (fun s => shouldIncludeSegment s.toList) with
    | [] => none
    | c :: cleaned =>
      if c = "api" then
        some
          (joinWithChar '/' (segments.map String.toList),
           '/' :: joinWithChar '/' ((c :: cleaned).map (fun s => transformSegment s.toList)))
      else none

/-- The handler-route collection loop of `getApiRoutes` (before sorting). -/
def collectApiRoutes (root : FSNode) : List RouteInfo :=
  (walkFS isRouteFileName root).1.foldr
    (fun p acc =>
      match deriveRouteMeta p with
      | none => acc
      | some (file, path) =>
        if extractHttpMethods (readFileContent root p) = [] then acc
        else
          { file := file,
            methods := sortMethods (extractHttpMethods (readFileContent root p)),
            path := path } :: acc)
    []

/-- `derivePageMeta`: route path (default `/`), fallback resolution for
`loading` and `error` bounded by the rightmost `app` ancestor. -/
def derivePageMeta (root : FSNode) (segments : List String) : Option PageInfo :=
  match lastIdxOf "app" segments with
  | none => none
  | some appIndex =>
    match segments.drop (appIndex + 1) with
    | [] => none
    | _ :: _ =>
      some
        { file := joinWithChar '/' (segments.map String.toList),
          path :=
            match ((segments.drop (appIndex + 1)).dropLast).filter
                (fun s => shouldIncludeSegment s.toList) with
            | [] => ['/']
            | cs => '/' :: joinWithChar '/' (cs.map (fun s => transformSegment s.toList)),
          loading :=
            resolveFallbackStatus (treeFs root) segments.dropLast.reverse "loading"
              (segments.take (appIndex + 1)).reverse,
          error :=
            resolveFallbackStatus (treeFs root) segments.dropLast.reverse "error"
              (segments.take (appIndex + 1)).reverse }

/-- The view-route collection loop of `getPageRoutes` (before sorting). -/
def collectPageRoutes (root : FSNode) : List PageInfo :=
  (walkFS isPageFileName root).1.foldr
    (fun p acc =>
      match derivePageMeta root p with
      | none => acc
      | some info => info :: acc)
    []

/-! ### The comparators and sorting -/

theorem lcmp_nil_right_ne_lt (x : List Char) : lcmp x [] ≠ .lt := by
  cases x <;> simp [lcmp]

theorem lcmp_cons_cons (a b : Char) (ta tb : List Char) :
    lcmp (a :: ta) (b :: tb) =
      (if a.toNat < b.toNat then .lt
       else if a.toNat = b.toNat then lcmp ta tb
       else .gt) := by
  rw [lcmp]

theorem lcmp_eq_congr {x y : List Char} (h : lcmp x y = .eq) :
    ∀ z, lcmp x z = lcmp y z := by
  induction x generalizing y with
  | nil =>
    cases y with
    | nil => intro z; rfl
    | cons b tb => simp [lcmp] at h
  | cons a ta ih =>
    cases y with
    | nil => simp [lcmp] at h
    | cons b tb =>
      rw [lcmp_cons_cons] at h
      by_cases h1 : a.toNat < b.toNat
      · rw [if_pos h1] at h; exact absurd h (by simp)
      · rw [if_neg h1] at h
        by_cases h2 : a.toNat = b.toNat
        · rw [if_pos h2] at h
          intro z
          cases z with
          | nil => rfl
          | cons c tc =>
            rw [lcmp_cons_cons, lcmp_cons_cons, h2]
            by_cases h3 : b.toNat < c.toNat
            · rw [if_pos h3, if_pos h3]
            · rw [if_neg h3, if_neg h3]
              by_cases h4 : b.toNat = c.toNat
              · rw [if_pos h4, if_pos h4, ih h tc]
              · rw [if_neg h4, if_neg h4]
        · rw [if_neg h2] at h; exact absurd h (by simp)

theorem lcmp_lt_trans {x y z : List Char} (h1 : lcmp x y = .lt) (h2 : lcmp y z = .lt) :
    lcmp x z = .lt := by
  induction x generalizing y z with
  | nil =>
    cases z with
    | nil => exact absurd h2 (lcmp_nil_right_ne_lt y)
    | cons c tc => simp [lcmp]
  | cons a ta ih =>
    cases y with
    | nil => exact absurd h1 (lcmp_nil_right_ne_lt _)
    | cons b tb =>
      cases z with
      | nil => exact absurd h2 (lcmp_nil_right_ne_lt _)
      | cons c tc =>
        rw [lcmp_cons_cons] at h1 h2 ⊢
        by_cases hab1 : a.toNat < b.toNat
        · by_cases hbc1 : b.toNat < c.toNat
          · rw [if_pos (by omega : a.toNat < c.toNat)]
          · rw [if_neg hbc1] at h2
            by_cases hbc2 : b.toNat = c.toNat
            · rw [if_pos (by omega : a.toNat < c.toNat)]
            · rw [if_neg hbc2] at h2; exact absurd h2 (by simp)
        · rw [if_neg hab1] at h1
          by_cases hab2 : a.toNat = b.toNat
          · rw [if_pos hab2] at h1
            by_cases hbc1 : b.toNat < c.toNat
            · rw [if_pos (by omega : a.toNat < c.toNat)]
            · rw [if_neg hbc1] at h2
              by_cases hbc2 : b.toNat = c.toNat
              · rw [if_pos hbc2] at h2
                rw [if_neg (by omega : ¬ a.toNat < c.toNat),
                  if_pos (by omega : a.toNat = c.toNat)]
                exact ih h1 h2
              · rw [if_neg hbc2] at h2; exact absurd h2 (by simp)
          · rw [if_neg hab2] at h1; exact absurd h1 (by simp)

theorem lcmp_gt_iff_lt : ∀ x y : List Char, lcmp x y = .gt ↔ lcmp y x = .lt := by
  intro x
  induction x with
  | nil =>
    intro y
    cases y <;> simp [lcmp]
  | cons a ta ih =>
    intro y
    cases y with
    | nil => simp [lcmp]
    | cons b tb =>
      rw [lcmp_cons_cons, lcmp_cons_cons]
      by_cases h1 : a.toNat < b.toNat
      · rw [if_pos h1, if_neg (by omega : ¬ b.toNat < a.toNat),
          if_neg (by omega : ¬ b.toNat = a.toNat)]
        simp
      · rw [if_neg h1]
        by_cases h2 : a.toNat = b.toNat
        · rw [if_pos h2, if_neg (by omega : ¬ b.toNat < a.toNat),
            if_pos (by omega : b.toNat = a.toNat)]
          exact ih tb
        · rw [if_neg h2, if_pos (by omega : b.toNat < a.toNat)]
          simp

theorem lcmp_refl (x : List Char) : lcmp x x = .eq := by
  induction x with
  | nil => rfl
  | cons a ta ih =>
    rw [lcmp_cons_cons, if_neg (by omega : ¬ a.toNat < a.toNat), if_pos rfl]
    exact ih

theorem lcmp_eq_symm {x y : List Char} (h : lcmp x y = .eq) : lcmp y x = .eq := by
  have := lcmp_eq_congr h x
  rw [lcmp_refl x] at this
  exact this.symm

theorem lcmp_eq_congr_right {y z : List Char} (h : lcmp y z = .eq) :
    ∀ x, lcmp x y = lcmp x z := by
  induction y generalizing z with
  | nil =>
    cases z with
    | nil => intro x; rfl
    | cons c tc => simp [lcmp] at h
  | cons b tb ih =>
    cases z with
    | nil => simp [lcmp] at h
    | cons c tc =>
      rw [lcmp_cons_cons] at h
      by_cases h1 : b.toNat < c.toNat
      · rw [if_pos h1] at h; exact absurd h (by simp)
      · rw [if_neg h1] at h
        by_cases h2 : b.toNat = c.toNat
        · rw [if_pos h2] at h
          intro x
          cases x with
          | nil => rfl
          | cons a ta =>
            rw [lcmp_cons_cons, lcmp_cons_cons, h2]
            by_cases h3 : a.toNat < c.toNat
            · rw [if_pos h3, if_pos h3]
            · rw [if_neg h3, if_neg h3]
              by_cases h4 : a.toNat = c.toNat
              · rw [if_pos h4, if_pos h4, ih h ta]
              · rw [if_neg h4, if_neg h4]
        · rw [if_neg h2] at h; exact absurd h (by simp)

theorem lcmp_le_trans {x y z : List Char} (h1 : ¬ lcmp x y = .gt)
    (h2 : ¬ lcmp y z = .gt) : ¬ lcmp x z = .gt := by
  rcases hxy : lcmp x y with _ | _ | _
  · rcases hyz : lcmp y z with _ | _ | _
    · rw [lcmp_lt_trans hxy hyz]; simp
    · rw [lcmp_eq_congr_right hyz x] at hxy
      rw [hxy]; simp
    · exact absurd hyz h2
  · rw [lcmp_eq_congr hxy z]
    exact h2
  · exact absurd hxy h1

/-- Two-key lexicographic comparator (path first, then a tiebreak key),
the shape of both sort callbacks in `getApiRoutes` / `getPageRoutes`. -/
def lexCmp {α : Type} (k1 k2 : α → List Char) (a b : α) : Ordering :=
  if lcmp (k1 a) (k1 b) = .eq then lcmp (k2 a) (k2 b) else lcmp (k1 a) (k1 b)

/-- "The comparator returns ≤ 0": the sort order relation. -/
def lexLe {α : Type} (k1 k2 : α → List Char) (a b : α) : Prop :=
  ¬ lexCmp k1 k2 a b = .gt

instance lexLeDec {α : Type} (k1 k2 : α → List Char) : DecidableRel (lexLe k1 k2) :=
  fun a b => inferInstanceAs (Decidable ¬ (lexCmp k1 k2 a b = .gt))

theorem lexLe_total {α : Type} (k1 k2 : α → List Char) (a b : α) :
    lexLe k1 k2 a b ∨ lexLe k1 k2 b a := by
  unfold lexLe lexCmp
  by_cases h1 : lcmp (k1 a) (k1 b) = .eq
  · rw [if_pos h1, if_pos (lcmp_eq_symm h1)]
    rcases h : lcmp (k2 a) (k2 b) with _ | _ | _
    · left; simp
    · left; simp
    · right
      rw [(lcmp_gt_iff_lt _ _).mp h]
      simp
  · rw [if_neg h1]
    have h1s : ¬ lcmp (k1 b) (k1 a) = .eq := fun hh => h1 (lcmp_eq_symm hh)
    rw [if_neg h1s]
    rcases h : lcmp (k1 a) (k1 b) with _ | _ | _
    · left; simp
    · exact absurd h h1
    · right
      rw [(lcmp_gt_iff_lt _ _).mp h]
      simp

theorem lexLe_trans {α : Type} (k1 k2 : α → List Char) (a b c : α)
    (h1 : lexLe k1 k2 a b) (h2 : lexLe k1 k2 b c) : lexLe k1 k2 a c := by
  unfold lexLe lexCmp at h1 h2 ⊢
  by_cases e1 : lcmp (k1 a) (k1 b) = .eq
  · rw [if_pos e1] at h1
    by_cases e2 : lcmp (k1 b) (k1 c) = .eq
    · rw [if_pos e2] at h2
      have e3 : lcmp (k1 a) (k1 c) = .eq := by
        rw [lcmp_eq_congr e1 (k1 c)]
        exact e2
      rw [if_pos e3]
      exact lcmp_le_trans h1 h2
    · rw [if_neg e2] at h2
      have e3 : lcmp (k1 a) (k1 c) = lcmp (k1 b) (k1 c) := lcmp_eq_congr e1 (k1 c)
      rw [if_neg (by rw [e3]; exact e2), e3]
      exact h2
  · rw [if_neg e1] at h1
    by_cases e2 : lcmp (k1 b) (k1 c) = .eq
    · have e3 : lcmp (k1 a) (k1 c) = lcmp (k1 a) (k1 b) := (lcmp_eq_congr_right e2 (k1 a)).symm
      rw [if_neg (by rw [e3]; exact e1), e3]
      exact h1
    · rw [if_neg e2] at h2
      rcases hab : lcmp (k1 a) (k1 b) with _ | _ | _
      · rcases hbc : lcmp (k1 b) (k1 c) with _ | _ | _
        · have : lcmp (k1 a) (k1 c) = .lt := lcmp_lt_trans hab hbc
          rw [if_neg (by rw [this]; simp), this]
          simp
        · exact absurd hbc e2
        · exact absurd (hbc ▸ h2) (by simp)
      · exact absurd hab e1
      · exact absurd (hab ▸ h1) (by simp)

/-- `methods.join(',')` (the handler tiebreak key). -/
def methodsStr (r : RouteInfo) : List Char := joinWithChar ',' r.methods

instance lexLeTotal {α : Type} (k1 k2 : α → List Char) : IsTotal α (lexLe k1 k2) :=
  ⟨lexLe_total k1 k2⟩

instance lexLeTrans {α : Type} (k1 k2 : α → List Char) : IsTrans α (lexLe k1 k2) :=
  ⟨lexLe_trans k1 k2⟩

/-- The `routes.sort(...)` of `getApiRoutes`: stable sort by
(path, methods-as-string); the file path is not consulted. -/
def sortApiRoutes (l : List RouteInfo) : List RouteInfo :=
  List.insertionSort (lexLe RouteInfo.path methodsStr) l

/-- The `pages.sort(...)` of `getPageRoutes`: stable sort by (path, file). -/
def sortPageRoutes (l : List PageInfo) : List PageInfo :=
  List.insertionSort (lexLe PageInfo.path PageInfo.file) l

/-- `getApiRoutes` end to end on a filesystem tree. -/
def getApiRoutesModel (root : FSNode) : List RouteInfo :=
  sortApiRoutes (collectApiRoutes root)

/-- `getPageRoutes` end to end on a filesystem tree. -/
def getPageRoutesModel (root : FSNode) : List PageInfo :=
  sortPageRoutes (collectPageRoutes root)

/-- **C1** (amended).  Handler route tables are sorted by RoutePath with
ties broken by the methods list rendered as a string (the file path is not
consulted); page route tables are sorted by RoutePath then file path.  Both
hold for every filesystem tree and, since the sort is applied to the whole
collected list, for every permutation of the discovery order: the sorted
output is a permutation of the input and is ordered under the respective
comparator for every input list. -/
theorem c1_sort_invariant :
    (∀ root : FSNode,
      List.Sorted (lexLe RouteInfo.path methodsStr) (getApiRoutesModel root)) ∧
    (∀ root : FSNode,
      List.Sorted (lexLe PageInfo.path PageInfo.file) (getPageRoutesModel root)) ∧
    (∀ l : List RouteInfo,
      List.Sorted (lexLe RouteInfo.path methodsStr) (sortApiRoutes l) ∧
      (sortApiRoutes l).Perm l) ∧
    (∀ l : List PageInfo,
      List.Sorted (lexLe PageInfo.path PageInfo.file) (sortPageRoutes l) ∧
      (sortPageRoutes l).Perm l) := by
  refine ⟨?_, ?_, ?_, ?_⟩
  · intro root
    exact List.sorted_insertionSort _ _
  · intro root
    exact List.sorted_insertionSort _ _
  · intro l
    exact ⟨List.sorted_insertionSort _ _, List.perm_insertionSort _ _⟩
  · intro l
    exact ⟨List.sorted_insertionSort _ _, List.perm_insertionSort _ _⟩

/-- The ordering asserted by the claim for handler routes: path, then file,
then methods-as-string. -/
def c1ClaimLe (a b : RouteInfo) : Prop :=
  ¬ (if lcmp a.path b.path = .eq then
      if lcmp a.file b.file = .eq then lcmp (methodsStr a) (methodsStr b)
      else lcmp a.file b.file
     else lcmp a.path b.path) = .gt

instance c1ClaimLeDec : DecidableRel c1ClaimLe :=
  fun _ _ => inferInstanceAs (Decidable ¬ _)

def c1GetFile : List Char := "export function GET() \x7b return 1 \x7d\n".toList

def c1PostFile : List Char := "export function POST() \x7b return 1 \x7d\n".toList

/-- Two handler files with the same RoutePath `/api/x`: a plain one holding
`GET` and one behind a route group holding `POST`. -/
def c1Tree : FSNode :=
  .dir (.cons "app"
    (.dir
      (.cons "api"
        (.dir (.cons "x" (.dir (.cons "route.ts" (.file c1GetFile) .nil)) .nil))
        (.cons "(g)"
          (.dir (.cons "api"
            (.dir (.cons "x" (.dir (.cons "route.ts" (.file c1PostFile) .nil)) .nil))
            .nil))
          .nil)))
    .nil)

/-- **C1** counterexample.  On `c1Tree` the emitted handler table has two
rows with the same RoutePath whose file paths are in *decreasing* order
(`app/api/x/route.ts` before `app/(g)/api/x/route.ts`), because the
comparator breaks the path tie by methods string (`GET` < `POST`), never by
file.  The table is therefore not sorted by (path, then file) as the claim
states — for any discovery order, since the sort result is order-
independent here. -/
theorem c1_counterexample :
    getApiRoutesModel c1Tree =
      [{ file := "app/api/x/route.ts".toList, methods := ["GET".toList],
         path := "/api/x".toList },
       { file := "app/(g)/api/x/route.ts".toList, methods := ["POST".toList],
         path := "/api/x".toList }] ∧
    ¬ List.Sorted c1ClaimLe (getApiRoutesModel c1Tree) := by
  refine ⟨by decide, ?_⟩
  rw [List.Sorted]
  decide

/-! ## C10: discovery is read-only -/

/-- Build a fresh file at a path (for modelling `writeFile`). -/
def mkPath : List String → List Char → FSNode
  | [], c => .file c
  | s :: r, c => .dir (.cons s (mkPath r c) .nil)

mutual
/-- Interpret `writeFile` on the tree (creates or overwrites). -/
def setFile (n : FSNode) : List String → List Char → FSNode
  | [], _ => n
  | seg :: rest, c =>
    match n with
    | .file co => .file co
    | .dir entries => .dir (setInEntries entries seg rest c)

def setInEntries : FSEntries → String → List String → List Char → FSEntries
  | .nil, seg, rest, c => .cons seg (mkPath rest c) .nil
  | .cons name node es, seg, rest, c =>
    if name = seg then .cons name (setFile node rest c) es
    else .cons name node (setInEntries es seg rest c)
end

/-- Drop a directory entry by name. -/
def dropEntry : FSEntries → String → FSEntries
  | .nil, _ => .nil
  | .cons name node es, seg =>
    if name = seg then es else .cons name node (dropEntry es seg)

mutual
/-- Interpret `unlink` on the tree. -/
def removeFile (n : FSNode) : List String → FSNode
  | [] => n
  | [seg] =>
    match n with
    | .file co => .file co
    | .dir entries => .dir (dropEntry entries seg)
  | seg :: rest =>
    match n with
    | .file co => .file co
    | .dir entries => .dir (removeInEntries entries seg rest)

def removeInEntries : FSEntries → String → List String → FSEntries
  | .nil, _, _ => .nil
  | .cons name node es, seg, rest =>
    if name = seg then .cons name (removeFile node rest) es
    else .cons name node (removeInEntries es seg rest)
end

/-- Interpret one filesystem operation: reads leave the tree unchanged,
writes and unlinks modify it. -/
def applyFsOp (root : FSNode) (op : FsOp) : FSNode :=
  match op with
  | .readdir _ => root
  | .statF _ => root
  | .readFile _ => root
  | .writeFile p c => setFile root p c
  | .unlink p => removeFile root p

def applyFsOps (root : FSNode) (ops : List FsOp) : FSNode :=
  ops.foldl applyFsOp root

/-- Read-class operations: directory listings, stat probes, file reads. -/
def isReadOp : FsOp → Bool
  | .readdir _ => true
  | .statF _ => true
  | .readFile _ => true
  | .writeFile _ _ => false
  | .unlink _ => false

/-- The operations performed by `getApiRoutes`: the walk's `readdir`s, then
one `readFile` per discovered route file that passes `deriveRouteMeta`. -/
def getApiRoutesOps (root : FSNode) : List FsOp :=
  (walkFS isRouteFileName root).2 ++
  ((walkFS isRouteFileName root).1.map (fun p =>
    match deriveRouteMeta p with
    | none => ([] : List FsOp)
    | some _ => [FsOp.readFile p])).flatten

/-- The `stat` probes performed for one page file (loading, then error). -/
def derivePageOps (root : FSNode) (segments : List String) : List FsOp :=
  match lastIdxOf "app" segments with
  | none => []
  | some appIndex =>
    match segments.drop (appIndex + 1) with
    | [] => []
    | _ :: _ =>
      (resolveFallbackTrace (treeFs root) segments.dropLast.reverse "loading"
        (segments.take (appIndex + 1)).reverse).map
          (fun pr => FsOp.statF (pr.1.reverse ++ [pr.2])) ++
      (resolveFallbackTrace (treeFs root) segments.dropLast.reverse "error"
        (segments.take (appIndex + 1)).reverse).map
          (fun pr => FsOp.statF (pr.1.reverse ++ [pr.2]))

/-- The operations performed by `getPageRoutes`. -/
def getPageRoutesOps (root : FSNode) : List FsOp :=
  (walkFS isPageFileName root).2 ++
  ((walkFS isPageFileName root).1.map (derivePageOps root)).flatten

theorem applyFsOps_of_reads : ∀ (ops : List FsOp) (root : FSNode),
    ops.all isReadOp = true → applyFsOps root ops = root := by
  intro ops
  induction ops with
  | nil => intro root _; rfl
  | cons op rest ih =>
    intro root h
    simp only [List.all_cons, Bool.and_eq_true] at h
    have hstep : applyFsOp root op = root := by
      cases op with
      | readdir _ => rfl
      | statF _ => rfl
      | readFile _ => rfl
      | writeFile _ _ => exact absurd h.1 (by simp [isReadOp])
      | unlink _ => exact absurd h.1 (by simp [isReadOp])
    rw [applyFsOps, List.foldl_cons, hstep]
    exact ih root h.2

mutual
theorem goNode_reads (t : String → Bool) (p : List String) (n : FSNode) :
    ((goNode t p n).2).all isReadOp = true := by
  cases n with
  | file c => rfl
  | dir sub =>
    show (FsOp.readdir p :: (goEntries t p sub).2).all isReadOp = true
    simp only [List.all_cons, Bool.and_eq_true]
    exact ⟨rfl, goEntries_reads t p sub⟩

theorem goEntries_reads (t : String → Bool) (p : List String) (es : FSEntries) :
    ((goEntries t p es).2).all isReadOp = true := by
  cases es with
  | nil => rfl
  | cons name node rest =>
    cases node with
    | dir sub =>
      by_cases hskip : SKIP_DIRECTORIES.contains name
      · show ((if SKIP_DIRECTORIES.contains name then goEntries t p rest else _).2).all
          isReadOp = true
        rw [if_pos hskip]
        exact goEntries_reads t p rest
      · show ((if SKIP_DIRECTORIES.contains name then goEntries t p rest else
          ((goNode t (p ++ [name]) (FSNode.dir sub)).1 ++ (goEntries t p rest).1,
           (goNode t (p ++ [name]) (FSNode.dir sub)).2 ++
             (goEntries t p rest).2)).2).all isReadOp = true
        rw [if_neg hskip]
        simp only [List.all_append, Bool.and_eq_true]
        exact ⟨goNode_reads t (p ++ [name]) (FSNode.dir sub), goEntries_reads t p rest⟩
    | file c =>
      by_cases ht : t name = true
      · show ((if t name = true then
            ((p ++ [name]) :: (goEntries t p rest).1, (goEntries t p rest).2)
          else goEntries t p rest).2).all isReadOp = true
        rw [if_pos ht]
        exact goEntries_reads t p rest
      · show ((if t name = true then
            ((p ++ [name]) :: (goEntries t p rest).1, (goEntries t p rest).2)
          else goEntries t p rest).2).all isReadOp = true
        rw [if_neg ht]
        exact goEntries_reads t p rest
end

/-- **C10**.  Route discovery is read-only: both pipelines perform only
`readdir`, `stat` and `readFile` operations, and interpreting their whole
operation trace over any filesystem tree leaves the tree exactly as it
was. -/
theorem c10_discovery_read_only :
    (∀ root : FSNode, (getApiRoutesOps root).all isReadOp = true ∧
      applyFsOps root (getApiRoutesOps root) = root) ∧
    (∀ root : FSNode, (getPageRoutesOps root).all isReadOp = true ∧
      applyFsOps root (getPageRoutesOps root) = root) := by
  have hapi : ∀ root : FSNode, (getApiRoutesOps root).all isReadOp = true := by
    intro root
    rw [getApiRoutesOps]
    simp only [List.all_append, Bool.and_eq_true]
    constructor
    · exact goNode_reads isRouteFileName [] root
    · rw [List.all_eq_true]
      intro op hop
      rw [List.mem_flatten] at hop
      obtain ⟨l, hl, hopl⟩ := hop
      rw [List.mem_map] at hl
      obtain ⟨q, -, rfl⟩ := hl
      rcases hd : deriveRouteMeta q with - | m
      · rw [hd] at hopl
        simp at hopl
      · rw [hd] at hopl
        simp at hopl
        rw [hopl]
        rfl
  have hpage : ∀ root : FSNode, (getPageRoutesOps root).all isReadOp = true := by
    intro root
    rw [getPageRoutesOps]
    simp only [List.all_append, Bool.and_eq_true]
    constructor
    · exact goNode_reads isPageFileName [] root
    · rw [List.all_eq_true]
      intro op hop
      rw [List.mem_flatten] at hop
      obtain ⟨l, hl, hopl⟩ := hop
      rw [List.mem_map] at hl
      obtain ⟨q, -, rfl⟩ := hl
      unfold derivePageOps at hopl
      split at hopl
      · simp at hopl
      · split at hopl
        · simp at hopl
        · simp only [List.mem_append, List.mem_map] at hopl
          rcases hopl with ⟨pr, -, rfl⟩ | ⟨pr, -, rfl⟩ <;> rfl
  exact ⟨fun root => ⟨hapi root, applyFsOps_of_reads _ root (hapi root)⟩,
    fun root => ⟨hpage root, applyFsOps_of_reads _ root (hpage root)⟩⟩
